import Mathlib

/-!
Shallow embedding of the a-i18n translation engine (src/@src/Utils.js) and
proofs about its specified properties.  JS strings are modelled as lists of
characters; JS objects keyed by strings are modelled as insertion-ordered
association lists, matching JS property-enumeration order.
-/

namespace AI18n

abbrev Str := List Char

def str (s : String) : Str := s.data

/-- Modelled from the spec: `Constants.js` is not under `src/`.  §4.3 of the
spec fixes four one-character line markers, a key/value separator (`=`, per the
spec example `+hello=Hi`), an update-line marker, a single-character newline
placeholder and a full-key separator.  The development only relies on these
characters being pairwise distinct and on the separator being `=`. -/
def CommentLine : Char := '#'

def ApprovedLine : Char := '+'

def NotApprovedLine : Char := '-'

def DeleteKeyLine : Char := '!'

def KeyValueSeparator : Char := '='

def UpdateLine : Char := '*'

def NewLineSymbol : Char := '↵'

def FullKeySeparator : Char := '|'

/-- The whitespace characters removed by JS `String.prototype.trim` that are
relevant here (ASCII whitespace; the engine's payloads are single lines). -/
def isWsChar (c : Char) : Bool :=
  c = ' ' || c = '\t' || c = '\n' || c = '\r' || c = '\x0b' || c = '\x0c'

/-- JS `value.trim()` on the list-of-characters string model. -/
def jsTrim (s : Str) : Str :=
  ((s.dropWhile isWsChar).reverse.dropWhile isWsChar).reverse

/-- One character of the newline-escaping map used by `safeValue$`. -/
def escChar (c : Char) : Char :=
  if c = '\n' then NewLineSymbol else c

/-- One character of the inverse map used by `unsafeValue$`. -/
def unescChar (c : Char) : Char :=
  if c = NewLineSymbol then '\n' else c

/-- `safeValue$ = (value = '') => value.trim().replace(/\n/g, NewLineSymbol)`
(src/@src/Utils.js line 42); `none` models a JS `undefined` argument hitting
the `= ''` default. -/
def safeValue (value : Option Str) : Str :=
  (jsTrim (value.getD [])).map escChar

/-- `unsafeValue$ = (value = '') => value.replace(NewLineSymbolRegEx, '\n')`
(src/@src/Utils.js line 43). -/
def unsafeValue (value : Option Str) : Str :=
  (value.getD []).map unescChar

/-! ### JS objects as insertion-ordered association lists -/

/-- JS property read `m[k]`. -/
def omapFind {α : Type} : List (Str × α) → Str → Option α
  | [], _ => none
  | (k, v) :: rest, key => if k = key then some v else omapFind rest key

/-- JS property write `m[k] = v`: updating an existing property keeps its
enumeration position, a new property is appended at the end. -/
def omapSet {α : Type} : List (Str × α) → Str → α → List (Str × α)
  | [], key, v => [(key, v)]
  | (k, w) :: rest, key, v =>
    if k = key then (k, v) :: rest else (k, w) :: omapSet rest key v

/-- JS `delete m[k]`. -/
def omapErase {α : Type} : List (Str × α) → Str → List (Str × α)
  | [], _ => []
  | (k, w) :: rest, key =>
    if k = key then omapErase rest key else (k, w) :: omapErase rest key

/-- JS `Object.keys(m)` (enumeration order). -/
def omapKeys {α : Type} (m : List (Str × α)) : List Str := m.map (·.1)

/-- JS `Set` built by inserting the elements of a list in order: first
occurrences, in order of first insertion. -/
def dedupFirstAux : List Str → List Str → List Str
  | [], _ => []
  | k :: rest, seen =>
    if k ∈ seen then dedupFirstAux rest seen
    else k :: dedupFirstAux rest (k :: seen)

def dedupFirst (l : List Str) : List Str := dedupFirstAux l []

/-! ### Data model -/

/-- A translation entry (spec §3 `TranslationEntry`): a JS object whose
`value`/`comment`/`approved` properties may be absent. -/
structure Translation where
  key : Str
  value : Option Str := none
  comment : Option Str := none
  approved : Option Bool := none
deriving DecidableEq, Repr

abbrev TMap := List (Str × Translation)

/-- The pending log.  `before[fullKey] = original[fullKey]` stores the JS
value `undefined` when the baseline has no entry, which still creates the
property — so `before` maps to `Option Translation`. -/
structure Updates where
  length : Nat
  before : List (Str × Option Translation)
  after : TMap
deriving DecidableEq, Repr

/-- Modelled from the spec: `Errors.js` is not under `src/`.  §7 splits errors
into a captured tier (`stateError` true: malformed line, duplicate key) and a
synchronously thrown tier; `NotResolvedError` wraps the captured cause.  The
message text of each error class is modelled minimally as its payload. -/
inductive ErrCode where
  | invalidLine | duplicateKey | notLoaded | notResolved | keyExist
  | keyNotExist | invalidKey | noI18nFiles | unappliedChanges | invalidFile
  | invalidOptions
deriving DecidableEq, Repr

structure I18nErr where
  code : ErrCode
  message : Str := []
  stateError : Bool := false
  cause : Option (ErrCode × Str) := none
deriving DecidableEq, Repr

def invalidLineErr (line : Str) : I18nErr :=
  { code := .invalidLine, message := line, stateError := true }

def duplicateKeyErr (payload : Str) : I18nErr :=
  { code := .duplicateKey, message := payload, stateError := true }

def notLoadedErr : I18nErr := { code := .notLoaded }

def notResolvedErr (cause : I18nErr) : I18nErr :=
  { code := .notResolved, cause := some (cause.code, cause.message) }

def invalidKeyErr : I18nErr := { code := .invalidKey }

def keyExistErr : I18nErr := { code := .keyExist }

def keyNotExistErr : I18nErr := { code := .keyNotExist }

def noI18nFilesErr : I18nErr := { code := .noI18nFiles }

def unappliedChangesErr : I18nErr := { code := .unappliedChanges }

def invalidFileErr : I18nErr := { code := .invalidFile }

/-- `EngineState` (spec §3); `keys` models `SortedArray.array`.  Modelled from
the spec where `SortedArray.js` is missing from `src/`: the registry is a
plain ordered list of keys. -/
structure EngineState where
  keys : List Str
  updates : Updates
  original : TMap
  updated : TMap
  error : Option I18nErr
  loaded : Bool
deriving DecidableEq, Repr

/-- The engine together with the on-disk locale files (name ↦ lines); the
model identifies the configured directory with its set of locale files. -/
structure Engine where
  state : EngineState
  files : List (Str × List Str)
deriving DecidableEq, Repr

def initUpdates : Updates := { length := 0, before := [], after := [] }

/-- `_resetState`/`_resetUpdates` on a fresh engine: all maps empty. -/
def initState : EngineState :=
  { keys := [], updates := initUpdates, original := [], updated := [],
    error := none, loaded := false }

/-- `FullKey(fileName, key) = fileName + FullKeySeparator + key`
(src/@src/Utils.js `buildFK$`; `FullKey.js` itself is not under `src/`). -/
def fkStr (fileName key : Str) : Str := fileName ++ FullKeySeparator :: key

/-- `splitFK$`: split a full key on every separator occurrence. -/
def splitFK (fullKey : Str) : List Str :=
  (fullKey.splitOnP (· = FullKeySeparator))

/-! ### Line codec -/

/-- JS `line.indexOf(c)` (first occurrence). -/
def jsIndexOf : Str → Char → Option Nat
  | [], _ => none
  | c :: rest, t => if c = t then some 0 else (jsIndexOf rest t).map (· + 1)

structure ParsedLine where
  type : Char
  key : Str
  value : Str
deriving DecidableEq, Repr

/-- `_parseLine(line, typeIndex)`: marker check, then the separator must occur
strictly after the marker position (`indexOf` returning -1 also fails the
`separatorIndex <= typeIndex` test). -/
def parseLine (line : Str) (typeIndex : Nat) : Except I18nErr ParsedLine :=
  match line.get? typeIndex with
  | none => .error (invalidLineErr line)
  | some type =>
    if type = CommentLine ∨ type = ApprovedLine ∨ type = NotApprovedLine ∨
        type = DeleteKeyLine then
      match jsIndexOf line KeyValueSeparator with
      | none => .error (invalidLineErr line)
      | some separatorIndex =>
        if separatorIndex ≤ typeIndex then .error (invalidLineErr line)
        else
          .ok { type := type,
                key := (line.drop (typeIndex + 1)).take
                  (separatorIndex - (typeIndex + 1)),
                value := line.drop (separatorIndex + 1) }
    else .error (invalidLineErr line)

/-! ### Update engine -/

/-- `_resolveTranslation`: read-or-create the entry in the target overlay map,
set the parsed field(s), and always mirror the entry into `state.updated`.
Returns the new target map and the new `updated` map. -/
def resolveTranslation (fullKey : Str) (p : ParsedLine) (target updated : TMap) :
    TMap × TMap :=
  let t0 := (omapFind target fullKey).getD { key := p.key }
  let t1 := if p.type = CommentLine then { t0 with comment := some p.value }
    else { t0 with value := some p.value,
                   approved := some (p.type = ApprovedLine) }
  (omapSet target fullKey t1, omapSet updated fullKey t1)

/-- `_updateState(fileName, line)`: reject embedded newlines, parse at type
index 1 (after the update-line marker), record the baseline value into
`updates.before` on every touch, then apply the delete or resolve branch. -/
def updateState (fileName line : Str) (st : EngineState) :
    Except I18nErr EngineState :=
  if '\n' ∈ line then .error (invalidLineErr line)
  else
    match parseLine line 1 with
    | .error e => .error e
    | .ok p =>
      let fullKey := fkStr fileName p.key
      let upd1 : Updates :=
        { st.updates with
          length := st.updates.length + 1,
          before := omapSet st.updates.before fullKey
            (omapFind st.original fullKey) }
      if p.type = DeleteKeyLine then
        .ok { st with
              updates := { upd1 with after := omapErase upd1.after fullKey },
              updated := omapErase st.updated fullKey,
              keys := st.keys.erase p.key }
      else
        let r := resolveTranslation fullKey p upd1.after st.updated
        .ok { st with updates := { upd1 with after := r.1 }, updated := r.2 }

/-- `_updateKeys()`: the union of the key sets of `updates.before` and
`updates.after`, as a JS `Set` (first-insertion order). -/
def updateKeysOf (st : EngineState) : List Str :=
  dedupFirst (omapKeys st.updates.before ++ omapKeys st.updates.after)

/-- The entry used by `save` for files with no entry (`updated[fk] || {}`). -/
def blankT : Translation := { key := [] }

/-- JS `t.field && t.field.trim().length > 0`. -/
def hasNonBlank (o : Option Str) : Bool :=
  match o with
  | some s => !s.isEmpty && !(jsTrim s).isEmpty
  | none => false

def saveHasComment (updated : TMap) (names : List Str) (key : Str) : Bool :=
  names.any fun n =>
    hasNonBlank (((omapFind updated (fkStr n key)).getD blankT).comment)

def saveHasValue (updated : TMap) (names : List Str) (key : Str) : Bool :=
  names.any fun n =>
    hasNonBlank (((omapFind updated (fkStr n key)).getD blankT).value)

/-- The lines `save()` writes for one key into one file: a comment line when
any file has a non-blank comment for the key, then a value line when any file
has a non-blank comment or value for it. -/
def saveKeyLines (updated : TMap) (names : List Str) (key n : Str) : List Str :=
  let t := (omapFind updated (fkStr n key)).getD blankT
  let hc := saveHasComment updated names key
  let hv := saveHasValue updated names key
  (if hc then [CommentLine :: key ++ KeyValueSeparator :: t.comment.getD []]
   else []) ++
  (if hc || hv then
    [(if t.approved.getD false then ApprovedLine else NotApprovedLine) ::
      key ++ KeyValueSeparator :: t.value.getD []]
   else [])

def saveFileLines (st : EngineState) (names : List Str) (n : Str) : List Str :=
  st.keys.flatMap fun k => saveKeyLines st.updated names k n

/-- `save()`: rewrite every locale file from the working map in registry
order, then `_resetUpdates()`, which clears the log, sets
`original := updated` and resets `updated` to a fresh empty object. -/
def save (e : Engine) : Engine :=
  let names := e.files.map (·.1)
  { files := e.files.map fun f => (f.1, saveFileLines e.state names f.1),
    state := { e.state with
               updates := initUpdates,
               original := e.state.updated,
               updated := [] } }

/-! ### Validation gate and public-function wrapper -/

/-- `_validateAction(fnName, options)`: `load`/`connect`/`export` bypass the
gate; otherwise reject when not loaded, or when a captured state error exists
(wrapping it in a not-resolved error). -/
def validateAction (fnName : Str) (st : EngineState) : Option I18nErr :=
  if fnName = str "load" ∨ fnName = str "connect" ∨ fnName = str "export" then
    none
  else if ¬ st.loaded then some notLoadedErr
  else
    match st.error with
    | some e => some (notResolvedErr e)
    | none => none

/-- The wrapper `initialize` installs around every public method: run the
gate, then the method body.  A thrown error is returned in the second
component, with the (possibly mutated) engine in the first. -/
def runWrapped (fnName : Str) (body : Engine → Engine × Option I18nErr)
    (e : Engine) : Engine × Option I18nErr :=
  match validateAction fnName e.state with
  | some err => (e, some err)
  | none => body e

def saveBody (e : Engine) : Engine × Option I18nErr := (save e, none)

/-- `_changeUpdates(fn)`: early return on an empty union; otherwise apply `fn`
to every full key of the union, recompute `updates.length` as the size of the
new union, and if the union became empty invoke the public `save()` (which
re-runs the validation gate). -/
def changeUpdates (fn : Str → EngineState → EngineState) (e : Engine) :
    Engine × Option I18nErr :=
  let updateKeys := updateKeysOf e.state
  if updateKeys.isEmpty then (e, none)
  else
    let st1 := updateKeys.foldl (fun st k => fn k st) e.state
    let optimizedKeys := updateKeysOf st1
    let st2 : EngineState :=
      { st1 with updates := { st1.updates with length := optimizedKeys.length } }
    if optimizedKeys.isEmpty then
      runWrapped (str "save") saveBody { e with state := st2 }
    else ({ e with state := st2 }, none)

/-- The per-key action of `_optimizeUpdates`: drop the key from both log
sides when baseline and working entries exist and agree on `safeValue` of
comment and value and on `approved` (defaulting to false). -/
def optimizeFn (fullKey : Str) (st : EngineState) : EngineState :=
  match omapFind st.original fullKey, omapFind st.updated fullKey with
  | some o, some u =>
    if safeValue o.comment = safeValue u.comment ∧
        safeValue o.value = safeValue u.value ∧
        o.approved.getD false = u.approved.getD false then
      { st with updates :=
        { st.updates with
          before := omapErase st.updates.before fullKey,
          after := omapErase st.updates.after fullKey } }
    else st
  | _, _ => st

def optimizeUpdates (e : Engine) : Engine × Option I18nErr :=
  changeUpdates optimizeFn e

/-- `appendLine` on the storage collaborator (creates the file when absent,
like `fs.appendFileSync`). -/
def appendToFile (fileName line : Str) (files : List (Str × List Str)) :
    List (Str × List Str) :=
  if files.any (fun f => f.1 = fileName) then
    files.map fun f => if f.1 = fileName then (f.1, f.2 ++ [line]) else f
  else files ++ [(fileName, [line])]

/-- `_appendUpdate(fileName, line)`: prefix the update marker, apply the state
transition, run the optimizer (which may invoke `save`), and only then append
the encoded line to the target file. -/
def appendUpdate (fileName line : Str) (e : Engine) : Engine × Option I18nErr :=
  match updateState fileName (UpdateLine :: line) e.state with
  | .error err => (e, some err)
  | .ok st1 =>
    match optimizeUpdates { e with state := st1 } with
    | (e1, some err) => (e1, some err)
    | (e1, none) =>
      ({ e1 with files := appendToFile fileName (UpdateLine :: line) e1.files },
        none)

/-- `_validateKey(key)`: JS truthiness makes `undefined` and the empty string
fail; a key containing the key/value separator also fails. -/
def validateKey (key : Option Str) : Option I18nErr :=
  match key with
  | some k => if k ≠ [] ∧ KeyValueSeparator ∉ k then none else some invalidKeyErr
  | none => some invalidKeyErr

/-! ### Public operations (method bodies) -/

def undefinedStr : Str := str "undefined"

def updateValueBody (fileName key value : Option Str) (e : Engine) :
    Engine × Option I18nErr :=
  match validateKey key with
  | some err => (e, some err)
  | none =>
    let line := NotApprovedLine :: key.getD [] ++
      KeyValueSeparator :: safeValue value
    appendUpdate (fileName.getD undefinedStr) line e

def updateApprovedBody (fileName key : Option Str) (approved : Bool)
    (e : Engine) : Engine × Option I18nErr :=
  match validateKey key with
  | some err => (e, some err)
  | none =>
    let fn := fileName.getD undefinedStr
    let value := (omapFind e.state.updated (fkStr fn (key.getD []))).bind
      (·.value)
    let line := (if approved then ApprovedLine else NotApprovedLine) ::
      key.getD [] ++ KeyValueSeparator :: safeValue value
    appendUpdate fn line e

def updateCommentBody (fileName key comment : Option Str) (e : Engine) :
    Engine × Option I18nErr :=
  match validateKey key with
  | some err => (e, some err)
  | none =>
    let line := CommentLine :: key.getD [] ++
      KeyValueSeparator :: safeValue comment
    appendUpdate (fileName.getD undefinedStr) line e

def updateTranslationBody (fileName key value comment : Option Str)
    (approved : Bool) (e : Engine) : Engine × Option I18nErr :=
  match validateKey key with
  | some err => (e, some err)
  | none =>
    let k := key.getD []
    let fn := fileName.getD undefinedStr
    let commentLine := CommentLine :: k ++ KeyValueSeparator :: safeValue comment
    let valueLine := (if approved then ApprovedLine else NotApprovedLine) ::
      k ++ KeyValueSeparator :: safeValue value
    match appendUpdate fn commentLine e with
    | (e1, some err) => (e1, some err)
    | (e1, none) => appendUpdate fn valueLine e1

/-- JS string truthiness: `undefined` and `''` are falsy. -/
def truthy (o : Option Str) : Bool :=
  match o with
  | some s => !s.isEmpty
  | none => false

/-- The per-key action of `revert`: skip keys outside the requested scope,
otherwise restore `updated` from `original` (or drop the entry when no
baseline exists) and delete the key from both log sides. -/
def revertFn (fileName key : Option Str) (fullKey : Str) (st : EngineState) :
    EngineState :=
  let splitKey := splitFK fullKey
  if (truthy fileName && decide (fileName.getD [] ≠ splitKey.getD 0 [])) ||
      (truthy key && decide (key.getD [] ≠ splitKey.getD 1 [])) then st
  else
    let st1 := match omapFind st.original fullKey with
      | some o => { st with updated := omapSet st.updated fullKey o }
      | none => { st with updated := omapErase st.updated fullKey }
    { st1 with updates :=
      { st1.updates with
        after := omapErase st1.updates.after fullKey,
        before := omapErase st1.updates.before fullKey } }

def revertBody (fileName key : Option Str) (e : Engine) :
    Engine × Option I18nErr :=
  changeUpdates (revertFn fileName key) e

/-- Modelled from the spec: `SortedArray.js` is not under `src/`.  §4.1:
`sortedIndexOf` returns the insertion position for an absent key and a
sentinel (here `none`, for JS `-1`) for a present one. -/
def strLt : Str → Str → Bool
  | [], [] => false
  | [], _ :: _ => true
  | _ :: _, [] => false
  | a :: as, b :: bs => if a < b then true else if a = b then strLt as bs else false

def sortedIndexOf (l : List Str) (k : Str) : Option Nat :=
  if k ∈ l then none else some (l.countP (fun x => strLt x k))

def insertAt (l : List Str) (i : Nat) (k : Str) : List Str :=
  l.take i ++ k :: l.drop i

/-- Modelled from the spec: `SortedArray.remove` removes the key and reports
whether it was present. -/
def listRemove (l : List Str) (k : Str) : Bool × List Str :=
  if k ∈ l then (true, l.erase k) else (false, l)

def addKeyLoop : List (Str × List Str) → Engine → Engine × Option I18nErr
  | [], e => (e, none)
  | _ :: fs, e =>
    match runWrapped (str "updateValue") (updateValueBody none none none) e with
    | (e1, some err) => (e1, some err)
    | (e1, none) => addKeyLoop fs e1

/-- `addKey({key})`.  The loop executes `this.updateValue(file.name, key)`:
two positional arguments passed to the wrapped one-options-object function,
so the options value is the file-name string, whose `fileName`/`key`/`value`
property reads are all `undefined`. -/
def addKeyBody (key : Option Str) (e : Engine) : Engine × Option I18nErr :=
  match validateKey key with
  | some err => (e, some err)
  | none =>
    let k := key.getD []
    match sortedIndexOf e.state.keys k with
    | none => (e, some keyExistErr)
    | some sortedIndex =>
      if e.files.length = 0 then (e, some noI18nFilesErr)
      else
        let keys1 := insertAt e.state.keys sortedIndex k
        addKeyLoop e.files { e with state := { e.state with keys := keys1 } }

def copyKeyLoop (fromKey toKey : Str) :
    List (Str × List Str) → Engine → Engine × Option I18nErr
  | [], e => (e, none)
  | f :: fs, e =>
    -- `Object.assign({fileName, key: toKey}, updated[fullKey])`: the entry's
    -- own `key` field (the from-key) and its other fields override the
    -- freshly written `key: toKey`.
    let r := match omapFind e.state.updated (fkStr f.1 fromKey) with
      | none => runWrapped (str "updateTranslation")
          (updateTranslationBody (some f.1) (some toKey) none none false) e
      | some t => runWrapped (str "updateTranslation")
          (updateTranslationBody (some f.1) (some t.key) t.value t.comment
            (t.approved.getD false)) e
    match r with
    | (e1, some err) => (e1, some err)
    | (e1, none) => copyKeyLoop fromKey toKey fs e1

def copyKeyBody (fromKey toKey : Option Str) (e : Engine) :
    Engine × Option I18nErr :=
  if fromKey = toKey then (e, none)
  else
    match validateKey fromKey with
    | some err => (e, some err)
    | none =>
      match validateKey toKey with
      | some err => (e, some err)
      | none =>
        if e.files.length = 0 then (e, some noI18nFilesErr)
        else if fromKey.getD [] ∉ e.state.keys then (e, some keyNotExistErr)
        else
          match sortedIndexOf e.state.keys (toKey.getD []) with
          | none => (e, some keyExistErr)
          | some sortedIndex =>
            let keys1 := insertAt e.state.keys sortedIndex (toKey.getD [])
            copyKeyLoop (fromKey.getD []) (toKey.getD []) e.files
              { e with state := { e.state with keys := keys1 } }

def deleteKeyLoop (k : Str) :
    List (Str × List Str) → Engine → Engine × Option I18nErr
  | [], e => (e, none)
  | f :: fs, e =>
    match appendUpdate f.1 (DeleteKeyLine :: k) e with
    | (e1, some err) => (e1, some err)
    | (e1, none) => deleteKeyLoop k fs e1

def deleteKeyBody (key : Option Str) (e : Engine) : Engine × Option I18nErr :=
  match validateKey key with
  | some err => (e, some err)
  | none =>
    let k := key.getD []
    let r := listRemove e.state.keys k
    if r.1 then
      deleteKeyLoop k e.files { e with state := { e.state with keys := r.2 } }
    else (e, none)

/-- `renameKey`: validate both keys, run the public `copyKey`, then run
`this.deleteKey({ fromKey })` — an options object without a `key` property,
so `deleteKey` reads `key = undefined`. -/
def renameKeyBody (fromKey toKey : Option Str) (e : Engine) :
    Engine × Option I18nErr :=
  if fromKey = toKey then (e, none)
  else
    match validateKey fromKey with
    | some err => (e, some err)
    | none =>
      match validateKey toKey with
      | some err => (e, some err)
      | none =>
        match runWrapped (str "copyKey") (copyKeyBody fromKey toKey) e with
        | (e1, some err) => (e1, some err)
        | (e1, none) => runWrapped (str "deleteKey") (deleteKeyBody none) e1

def addFileBody (fileName : Option Str) (e : Engine) :
    Engine × Option I18nErr :=
  let fn := fileName.getD []
  if e.state.updates.length ≠ 0 then (e, some unappliedChangesErr)
  else if fn.isEmpty then (e, some invalidFileErr)
  else if e.files.any (fun f => f.1 = fn) then (e, some invalidFileErr)
  else runWrapped (str "save") saveBody { e with files := e.files ++ [(fn, [])] }

def deleteFileBody (fileName : Option Str) (e : Engine) :
    Engine × Option I18nErr :=
  let fn := fileName.getD []
  if e.state.updates.length ≠ 0 then (e, some unappliedChangesErr)
  else if ¬ e.files.any (fun f => f.1 = fn) then (e, none)
  else runWrapped (str "save") saveBody
    { e with files := e.files.filter (fun f => ¬ f.1 = fn) }

/-! ### Load -/

structure FileCtx where
  st : EngineState
  gkeys : List Str
  vKeys : List Str
  cKeys : List Str
  queue : List Str
deriving Repr

/-- JS `Set.add`: append if not already present. -/
def addNew (l : List Str) (k : Str) : List Str :=
  if k ∈ l then l else l ++ [k]

def natStr (n : Nat) : Str := (toString n).data

/-- The `[fileName:lineNumber]` message annotation added by `load`'s inner
catch to state-tier errors. -/
def annotate (fname : Str) (lineNumber : Nat) (e : I18nErr) : I18nErr :=
  if e.stateError then
    { e with message :=
      '[' :: fname ++ ':' :: natStr lineNumber ++ ']' :: ' ' :: e.message }
  else e

/-- One iteration of `load`'s line loop: defer update-prefixed lines,
otherwise parse, fold into `original` (and `updated`), then run the per-kind
duplicate check and extend the key sets. -/
def loadLineStep (fname : Str) (lineNumber : Nat) (line : Str) (c : FileCtx) :
    FileCtx × Option I18nErr :=
  if line.head? = some UpdateLine then
    ({ c with queue := c.queue ++ [line] }, none)
  else
    match parseLine line 0 with
    | .error err => (c, some (annotate fname lineNumber err))
    | .ok p =>
      let fullKey := fkStr fname p.key
      let r := resolveTranslation fullKey p c.st.original c.st.updated
      let c1 := { c with st := { c.st with original := r.1, updated := r.2 } }
      if (if p.type = CommentLine then p.key ∈ c1.cKeys else p.key ∈ c1.vKeys)
      then
        (c1, some (annotate fname lineNumber (duplicateKeyErr (p.type :: p.key))))
      else
        ({ c1 with
           gkeys := addNew c1.gkeys p.key,
           cKeys := if p.type = CommentLine then c1.cKeys ++ [p.key]
             else c1.cKeys,
           vKeys := if p.type = CommentLine then c1.vKeys
             else c1.vKeys ++ [p.key] }, none)

def loadLinesGo (fname : Str) :
    List Str → Nat → FileCtx → FileCtx × Option I18nErr
  | [], _, c => (c, none)
  | l :: rest, n, c =>
    match loadLineStep fname (n + 1) l c with
    | (c1, some err) => (c1, some err)
    | (c1, none) => loadLinesGo fname rest (n + 1) c1

/-- Replay of a file's queued update-prefixed lines through `_updateState`. -/
def replayGo (fname : Str) :
    List Str → EngineState → EngineState × Option I18nErr
  | [], st => (st, none)
  | l :: rest, st =>
    match updateState fname l st with
    | .error err => (st, some err)
    | .ok st1 => replayGo fname rest st1

/-- `while (line = reader.next())` stops at the first falsy line: end of file
or an empty line. -/
def takeLines (ls : List Str) : List Str := ls.takeWhile (fun l => !l.isEmpty)

def loadFile (fname : Str) (lines : List Str) (st : EngineState)
    (gkeys : List Str) : (EngineState × List Str) × Option I18nErr :=
  match loadLinesGo fname (takeLines lines) 0 ⟨st, gkeys, [], [], []⟩ with
  | (c, some err) => ((c.st, c.gkeys), some err)
  | (c, none) =>
    match replayGo fname c.queue c.st with
    | (st1, some err) => ((st1, c.gkeys), some err)
    | (st1, none) => ((st1, c.gkeys), none)

def loadFilesGo :
    List (Str × List Str) → EngineState → List Str →
      (EngineState × List Str) × Option I18nErr
  | [], st, gkeys => ((st, gkeys), none)
  | f :: fs, st, gkeys =>
    match loadFile f.1 f.2 st gkeys with
    | (r, some err) => (r, some err)
    | ((st1, g1), none) => loadFilesGo fs st1 g1

/-- `load()`: reset the state, process every locale file, then run the
optimizer and install the accumulated key set.  State-tier errors are captured
into `state.error`; other thrown errors (the optimizer's internal `save()`
hitting the not-loaded gate) propagate.  `loaded` is set in a `finally`. -/
def loadOp (e : Engine) : Engine × Option I18nErr :=
  match loadFilesGo e.files initState [] with
  | ((st, _), some err) =>
    if err.stateError then
      ({ files := e.files,
         state := { st with error := some err, loaded := true } }, none)
    else
      ({ files := e.files, state := { st with loaded := true } }, some err)
  | ((st, gkeys), none) =>
    match optimizeUpdates { state := st, files := e.files } with
    | (e1, none) =>
      ({ e1 with state := { e1.state with keys := gkeys, loaded := true } },
        none)
    | (e1, some err) =>
      ({ e1 with state := { e1.state with loaded := true } }, some err)

/-! ### The public interface -/

inductive Op where
  | load
  | save
  | addFile (fileName : Option Str)
  | deleteFile (fileName : Option Str)
  | addKey (key : Option Str)
  | copyKey (fromKey toKey : Option Str)
  | renameKey (fromKey toKey : Option Str)
  | deleteKey (key : Option Str)
  | updateValue (fileName key value : Option Str)
  | updateApproved (fileName key : Option Str) (approved : Bool)
  | updateComment (fileName key comment : Option Str)
  | updateTranslation (fileName key value comment : Option Str)
      (approved : Bool)
  | revert (fileName key : Option Str)

def fnNameOf : Op → Str
  | .load => str "load"
  | .save => str "save"
  | .addFile _ => str "addFile"
  | .deleteFile _ => str "deleteFile"
  | .addKey _ => str "addKey"
  | .copyKey _ _ => str "copyKey"
  | .renameKey _ _ => str "renameKey"
  | .deleteKey _ => str "deleteKey"
  | .updateValue _ _ _ => str "updateValue"
  | .updateApproved _ _ _ => str "updateApproved"
  | .updateComment _ _ _ => str "updateComment"
  | .updateTranslation _ _ _ _ _ => str "updateTranslation"
  | .revert _ _ => str "revert"

def bodyOf : Op → Engine → Engine × Option I18nErr
  | .load => loadOp
  | .save => saveBody
  | .addFile fileName => addFileBody fileName
  | .deleteFile fileName => deleteFileBody fileName
  | .addKey key => addKeyBody key
  | .copyKey fromKey toKey => copyKeyBody fromKey toKey
  | .renameKey fromKey toKey => renameKeyBody fromKey toKey
  | .deleteKey key => deleteKeyBody key
  | .updateValue fileName key value => updateValueBody fileName key value
  | .updateApproved fileName key approved =>
      updateApprovedBody fileName key approved
  | .updateComment fileName key comment =>
      updateCommentBody fileName key comment
  | .updateTranslation fileName key value comment approved =>
      updateTranslationBody fileName key value comment approved
  | .revert fileName key => revertBody fileName key

/-- Run one public operation through the validation-gate wrapper; the second
component is the error it threw, if any. -/
def runOp (op : Op) (e : Engine) : Engine × Option I18nErr :=
  runWrapped (fnNameOf op) (bodyOf op) e

/-- A fresh engine over a directory holding the given locale files. -/
def mkEngine (fs : List (Str × List Str)) : Engine :=
  { state := initState, files := fs }

/-- A freshly constructed engine after its first `load()`. -/
def loadedEngine (fs : List (Str × List Str)) : Engine :=
  (runOp Op.load (mkEngine fs)).1

/-! ### Claim scenarios -/

/-- C2 scenario: baseline `-k=hi` with a stale pending line `*-k=bye`, then
`updateValue` back to `hi` (an edit whose net effect equals the baseline). -/
def c2Run : Engine × Option I18nErr :=
  runOp (Op.updateValue (some (str "app.i18n")) (some (str "k"))
      (some (str "hi")))
    (loadedEngine [(str "app.i18n", [str "-k=hi", str "*-k=bye"])])

/-- C3 scenario: baseline `+hello=Hi`, `updateValue` to `Salut`, then a
scoped `revert`. -/
def c3Run : Engine × Option I18nErr :=
  runOp (Op.revert (some (str "app.i18n")) (some (str "hello")))
    ((runOp (Op.updateValue (some (str "app.i18n")) (some (str "hello"))
        (some (str "Salut")))
      (loadedEngine [(str "app.i18n", [str "+hello=Hi"])])).1)

/-- C7 scenario, left side: `renameKey x y` on a single file with key `x`. -/
def c7Rename : Engine × Option I18nErr :=
  runOp (Op.renameKey (some (str "x")) (some (str "y")))
    (loadedEngine [(str "a.i18n", [str "-x=1"])])

/-- C7 scenario, right side: the claimed sequence `copyKey x y` then
`deleteKey({key: x})` on the same starting engine. -/
def c7Sequence : Engine × Option I18nErr :=
  runOp (Op.deleteKey (some (str "x")))
    ((runOp (Op.copyKey (some (str "x")) (some (str "y")))
      (loadedEngine [(str "a.i18n", [str "-x=1"])])).1)

/-- C9 scenario: `addKey` of the fresh key `b` on a loaded single-file engine
registering only `a`. -/
def c9Run : Engine × Option I18nErr :=
  runOp (Op.addKey (some (str "b")))
    (loadedEngine [(str "app.i18n", [str "-a=1"])])

/-- C4 counterexample scenario: the first file's update lines are replayed,
then the second file hits a duplicate baseline key. -/
def c4Run : Engine × Option I18nErr :=
  runOp Op.load (mkEngine
    [(str "a.i18n", [str "*-k=v1", str "*-k=v2"]),
     (str "b.i18n", [str "-x=1", str "-x=2"])])

/-- C8 counterexample scenario: `load()` then `save()` on a file holding only
a comment line, with zero pending edits. -/
def c8Run : Engine × Option I18nErr :=
  runOp Op.save (loadedEngine [(str "a.i18n", [str "#k=c"])])

/-- C5 inputs for the witness. -/
def w5T : Translation := { key := str "k", value := some (str "v") }

def w5FK : Str := fkStr (str "a.i18n") (str "k")

def w5E : Engine :=
  { files := [],
    state := { keys := [str "k"],
               updates := { length := 1, before := [(w5FK, some w5T)],
                            after := [(w5FK, w5T)] },
               original := [(w5FK, w5T)], updated := [(w5FK, w5T)],
               error := none, loaded := true } }

/-! ### The state transition on constructed update lines -/

/-- The entry written by `_resolveTranslation` for a value line. -/
def tValUpd (target : TMap) (fk k sv : Str) (m : Char) : Translation :=
  { ((omapFind target fk).getD { key := k }) with
    value := some sv, approved := some (m = ApprovedLine) }

/-- The entry written by `_resolveTranslation` for a comment line. -/
def tComUpd (target : TMap) (fk k sv : Str) : Translation :=
  { ((omapFind target fk).getD { key := k }) with comment := some sv }

/-- A string with no leading or trailing whitespace and no literal newline. -/
def normStr (s : Str) : Prop := jsTrim s = s ∧ '\n' ∉ s

/-- C10 witness inputs: one concrete `updateValue` on a loaded engine. -/
def w10E : Engine := loadedEngine [(str "a.i18n", [str "-x=old"])]

def w10Run : Engine × Option I18nErr :=
  runOp (.updateValue (some (str "a.i18n")) (some (str "x"))
    (some (str "ne\nw "))) w10E

def w10T : Translation :=
  { key := str "x", value := some (str "ne↵w"), approved := some false }

/-! ### Duplicate-key capture during load (C6) -/

/-- The baseline entry built from a single not-approved value line. -/
def dupT (k v : Str) : Translation :=
  { key := k, value := some v, approved := some false }

/-- The captured error for a second value line for key `k` at line 2 of
file `n`: a duplicate-key error annotated with the file name and line
number. -/
def dupErrAt (n k : Str) : I18nErr :=
  { code := .duplicateKey,
    message := '[' :: n ++ ':' :: natStr 2 ++ ']' :: ' ' :: NotApprovedLine :: k,
    stateError := true }

/-! ### The length/union invariant (C4) -/

/-- The invariant of the amended C4: whenever no load error is captured,
`updates.length` equals the size of the union of the `before`/`after` key
sets. -/
def lenInv (e : Engine) : Prop :=
  e.state.error = none →
    e.state.updates.length = (updateKeysOf e.state).length

/-- C4 witness scenario. -/
def w4Run : Engine :=
  (runOp (Op.updateValue (some (str "a.i18n")) (some (str "x"))
    (some (str "2"))) (loadedEngine [(str "a.i18n", [str "-x=1"])])).1

/-! ### Canonical file sets (C8) -/

/-- The lines `save` emits for one key in one file, parameterized by the
global per-key flags (`hc`: some file has a non-blank comment; `hv`: some
file has a non-blank value) and the per-file payloads. -/
def canonBlock (hc hv : Str → Bool) (cm vl : Str → Str → Str)
    (ap : Str → Str → Bool) (n k : Str) : List Str :=
  (if hc k then [CommentLine :: (k ++ KeyValueSeparator :: cm n k)] else []) ++
  (if hc k || hv k then
    [(if ap n k then ApprovedLine else NotApprovedLine) ::
      (k ++ KeyValueSeparator :: vl n k)]
   else [])

/-- A file set in `save`'s canonical form. -/
def canonFiles (names ks : List Str) (hc hv : Str → Bool)
    (cm vl : Str → Str → Str) (ap : Str → Str → Bool) :
    List (Str × List Str) :=
  names.map fun n => (n, ks.flatMap (canonBlock hc hv cm vl ap n))

/-- The entry the load pipeline reconstructs for a content key of a canonical
file. -/
def entryFor (hc : Str → Bool) (cm vl : Str → Str → Str)
    (ap : Str → Str → Bool) (n k : Str) : Translation :=
  { key := k, value := some (vl n k),
    comment := if hc k then some (cm n k) else none,
    approved :=
      some ((if ap n k then ApprovedLine else NotApprovedLine) = ApprovedLine) }

/-- Iterated `Set.add` over a list of keys. -/
def addNewAll (g : List Str) (l : List Str) : List Str := l.foldl addNew g

/-- The map produced by folding one canonical file's content entries into a
map, in key order. -/
def canonSetAll (hc hv : Str → Bool) (cm vl : Str → Str → Str)
    (ap : Str → Str → Bool) (n : Str) (ks : List Str) (m : TMap) : TMap :=
  ks.foldl
    (fun m k => if hc k || hv k then
      omapSet m (fkStr n k) (entryFor hc cm vl ap n k) else m) m

/-- The map produced by loading a whole canonical file set, file-major. -/
def canonMap (hc hv : Str → Bool) (cm vl : Str → Str → Str)
    (ap : Str → Str → Bool) (names ks : List Str) (m : TMap) : TMap :=
  names.foldl (fun m n => canonSetAll hc hv cm vl ap n ks m) m

/-- The key registry accumulated by loading a canonical file set: every file
contributes the same content-key list. -/
def canonKeys (names ks : List Str) (hc hv : Str → Bool) : List Str :=
  names.foldl (fun g _ => addNewAll g (ks.filter fun k => hc k || hv k)) []

/-- C8 witness data: two locale files sharing keys `hello` and `bye`, where
only `hello` has a (single-file) non-blank comment, every value is non-blank,
and only `a.i18n` is approved. -/
def w8N : List Str := [str "a.i18n", str "b.i18n"]

def w8K : List Str := [str "hello", str "bye"]

def w8hc : Str → Bool := fun k => k = str "hello"

def w8hv : Str → Bool := fun _ => true

def w8cm : Str → Str → Str := fun n k =>
  if n = str "a.i18n" ∧ k = str "hello" then str "greet" else []

def w8vl : Str → Str → Str := fun _ _ => str "v"

def w8ap : Str → Str → Bool := fun n _ => n = str "a.i18n"

/-- C6 witness scenario: the loaded engine over `b.i18n` with two `x` value
lines. -/
def c6Run : Engine :=
  (runOp Op.load (mkEngine [(str "b.i18n", [str "-x=1", str "-x=2"])])).1

/-! ### Theorems -/

theorem jsTrim_nil : jsTrim [] = [] := rfl

/-- A list whose head (if any) fails `p` is untouched by `dropWhile p`. -/
theorem dropWhile_eq_self_of_head {p : Char → Bool} :
    ∀ {l : Str}, (∀ c, l.head? = some c → p c = false) → l.dropWhile p = l := by
  intro l h
  cases l with
  | nil => rfl
  | cons a as =>
    have ha : p a = false := h a rfl
    simp [List.dropWhile_cons, ha]

/-- The head of a `dropWhile p` result fails `p`. -/
theorem head_dropWhile_false {p : Char → Bool} :
    ∀ (l : Str) (c : Char), (l.dropWhile p).head? = some c → p c = false := by
  intro l
  induction l with
  | nil => intro c h; simp at h
  | cons a as ih =>
    intro c h
    by_cases hpa : p a
    · exact ih c (by simpa [List.dropWhile_cons, hpa] using h)
    · have : a = c := by
        simp [List.dropWhile_cons, hpa] at h
        exact h
      simpa [← this] using (by simpa using hpa)

/-- A nonempty `dropWhile` result keeps the last element of the input. -/
theorem getLast?_dropWhile {p : Char → Bool} :
    ∀ (l : Str), l.dropWhile p ≠ [] → (l.dropWhile p).getLast? = l.getLast? := by
  intro l
  induction l with
  | nil => intro h; simp [List.dropWhile] at h
  | cons a as ih =>
    intro h
    by_cases hpa : p a
    · have hne : as.dropWhile p ≠ [] := by
        simpa [List.dropWhile_cons, hpa] using h
      have has : as ≠ [] := by
        intro hnil
        rw [hnil] at hne
        simp [List.dropWhile] at hne
      obtain ⟨b, bs, rfl⟩ := List.exists_cons_of_ne_nil has
      rw [List.dropWhile_cons]
      simp only [hpa, if_true]
      rw [ih hne, List.getLast?_cons_cons]
    · rw [List.dropWhile_cons, if_neg (by simpa using hpa)]

/-- `jsTrim` fixes any string whose first and last characters are not
whitespace. -/
theorem jsTrim_eq_self (l : Str)
    (h1 : ∀ c, l.head? = some c → isWsChar c = false)
    (h2 : ∀ c, l.getLast? = some c → isWsChar c = false) :
    jsTrim l = l := by
  unfold jsTrim
  rw [dropWhile_eq_self_of_head h1]
  rw [dropWhile_eq_self_of_head (by
    intro c hc
    rw [List.head?_reverse] at hc
    exact h2 c hc)]
  exact List.reverse_reverse l

/-- The first character of a `jsTrim` result is not whitespace. -/
theorem jsTrim_head (l : Str) :
    ∀ c, (jsTrim l).head? = some c → isWsChar c = false := by
  intro c hc
  unfold jsTrim at hc
  rw [List.head?_reverse] at hc
  set b := ((l.dropWhile isWsChar).reverse.dropWhile isWsChar) with hb
  have hbne : b ≠ [] := by
    intro hnil
    rw [hnil] at hc
    simp at hc
  have := getLast?_dropWhile (p := isWsChar) (l.dropWhile isWsChar).reverse (by rw [← hb]; exact hbne)
  rw [← hb] at this
  rw [this] at hc
  rw [List.getLast?_reverse] at hc
  exact head_dropWhile_false l c hc

/-- The last character of a `jsTrim` result is not whitespace. -/
theorem jsTrim_getLast (l : Str) :
    ∀ c, (jsTrim l).getLast? = some c → isWsChar c = false := by
  intro c hc
  unfold jsTrim at hc
  rw [List.getLast?_reverse] at hc
  exact head_dropWhile_false _ c hc

/-- `escChar` maps non-whitespace characters to non-whitespace characters. -/
theorem escChar_not_ws {c : Char} (h : isWsChar c = false) :
    isWsChar (escChar c) = false := by
  unfold escChar
  by_cases hc : c = '\n'
  · subst hc; simp [isWsChar] at h
  · simpa [hc] using h

/-- The escaped form of a payload contains no literal newline. -/
theorem escChar_ne_newline (c : Char) : escChar c ≠ '\n' := by
  unfold escChar
  by_cases hc : c = '\n'
  · simp [hc, NewLineSymbol]
  · rw [if_neg hc]
    exact hc

/-- `safeValue` output is `jsTrim`-fixed: it has no leading or trailing
whitespace. -/
theorem jsTrim_safeValue (v : Option Str) : jsTrim (safeValue v) = safeValue v := by
  unfold safeValue
  apply jsTrim_eq_self
  · intro c hc
    rw [List.head?_map] at hc
    cases hhead : (jsTrim (v.getD [])).head? with
    | none => rw [hhead] at hc; simp at hc
    | some a =>
      rw [hhead] at hc
      simp only [Option.map_some'] at hc
      have := jsTrim_head (v.getD []) a hhead
      rw [← Option.some_inj.mp hc]
      exact escChar_not_ws this
  · intro c hc
    rw [List.getLast?_map] at hc
    cases hlast : (jsTrim (v.getD [])).getLast? with
    | none => rw [hlast] at hc; simp at hc
    | some a =>
      rw [hlast] at hc
      simp only [Option.map_some'] at hc
      have := jsTrim_getLast (v.getD []) a hlast
      rw [← Option.some_inj.mp hc]
      exact escChar_not_ws this

/-- `safeValue` output contains no literal newline character. -/
theorem newline_not_mem_safeValue (v : Option Str) : '\n' ∉ safeValue v := by
  unfold safeValue
  intro hmem
  rcases List.mem_map.mp hmem with ⟨c, _, hc⟩
  exact escChar_ne_newline c hc

/-- C1 counterexample: `safeValue$` also trims the payload, so the round trip
is not the identity on a payload with leading whitespace: decoding the encoded
form of `" a"` yields `"a"`, not `" a"`. -/
theorem lineCodec_roundtrip_counterexample :
    unsafeValue (some (safeValue (some (str " a")))) ≠ str " a" := by
  decide

/-- C1 (amended): for every payload `v` with no leading or trailing whitespace
(`jsTrim v = v`) that does not already contain the newline placeholder symbol,
`unsafeValue$ (safeValue$ v) = v`; in particular embedded literal newlines
round-trip through the single-character placeholder. -/
theorem lineCodec_roundtrip (v : Str) (h1 : jsTrim v = v)
    (h2 : NewLineSymbol ∉ v) :
    unsafeValue (some (safeValue (some v))) = v := by
  unfold unsafeValue safeValue
  simp only [Option.getD_some, h1, List.map_map]
  have hpt : ∀ c ∈ v, (unescChar ∘ escChar) c = c := by
    intro c hc
    simp only [Function.comp_apply, unescChar, escChar]
    by_cases hn : c = '\n'
    · simp [hn]
    · rw [if_neg hn]
      have hcs : ¬ c = NewLineSymbol := by
        intro he
        exact h2 (he ▸ hc)
      rw [if_neg hcs]
  calc v.map (unescChar ∘ escChar) = v.map id := List.map_congr_left hpt
    _ = v := List.map_id v

/-- C1 witness: a payload with an embedded literal line break round-trips. -/
theorem lineCodec_roundtrip_witness :
    jsTrim (str "a\nb") = str "a\nb" ∧ NewLineSymbol ∉ str "a\nb" ∧
      unsafeValue (some (safeValue (some (str "a\nb")))) = str "a\nb" :=
  ⟨by decide, by decide, lineCodec_roundtrip (str "a\nb") (by decide) (by decide)⟩

theorem omapFind_set_self {α : Type} (m : List (Str × α)) (k : Str) (v : α) :
    omapFind (omapSet m k v) k = some v := by
  induction m with
  | nil => simp [omapSet, omapFind]
  | cons p rest ih =>
    obtain ⟨k', w⟩ := p
    by_cases h : k' = k
    · simp [omapSet, omapFind, h]
    · simp [omapSet, omapFind, h, ih]

theorem omapFind_set_ne {α : Type} (m : List (Str × α)) (k k' : Str) (v : α)
    (h : k' ≠ k) : omapFind (omapSet m k v) k' = omapFind m k' := by
  have hkk : ¬ k = k' := fun he => h he.symm
  induction m with
  | nil => simp [omapSet, omapFind, hkk]
  | cons p rest ih =>
    obtain ⟨k0, w⟩ := p
    by_cases h0 : k0 = k
    · subst h0
      rw [omapSet, if_pos rfl]
      rw [omapFind, omapFind, if_neg hkk, if_neg hkk]
    · rw [omapSet, if_neg h0]
      by_cases h1 : k0 = k'
      · rw [omapFind, omapFind, if_pos h1, if_pos h1]
      · rw [omapFind, omapFind, if_neg h1, if_neg h1, ih]

theorem omapFind_erase_self {α : Type} (m : List (Str × α)) (k : Str) :
    omapFind (omapErase m k) k = none := by
  induction m with
  | nil => rfl
  | cons p rest ih =>
    obtain ⟨k0, w⟩ := p
    by_cases h0 : k0 = k
    · rw [omapErase, if_pos h0]
      exact ih
    · rw [omapErase, if_neg h0, omapFind, if_neg h0]
      exact ih

theorem omapFind_erase_ne {α : Type} (m : List (Str × α)) (k k' : Str)
    (h : k' ≠ k) : omapFind (omapErase m k) k' = omapFind m k' := by
  induction m with
  | nil => rfl
  | cons p rest ih =>
    obtain ⟨k0, w⟩ := p
    by_cases h0 : k0 = k
    · subst h0
      rw [omapErase, if_pos rfl, omapFind,
        if_neg (fun he : k0 = k' => h he.symm)]
      exact ih
    · rw [omapErase, if_neg h0]
      by_cases h1 : k0 = k'
      · rw [omapFind, omapFind, if_pos h1, if_pos h1]
      · rw [omapFind, omapFind, if_neg h1, if_neg h1, ih]

/-- `omapFind` misses exactly the keys outside `omapKeys`. -/
theorem omapFind_eq_none_iff {α : Type} (m : List (Str × α)) (k : Str) :
    omapFind m k = none ↔ k ∉ omapKeys m := by
  induction m with
  | nil => simp [omapFind, omapKeys]
  | cons p rest ih =>
    obtain ⟨k0, w⟩ := p
    by_cases h0 : k0 = k
    · subst h0
      rw [omapFind, if_pos rfl]
      simp only [omapKeys, List.map_cons, List.mem_cons]
      constructor
      · intro h
        exact Option.noConfusion h
      · intro hn
        exact absurd (Or.inl trivial) hn
    · rw [omapFind, if_neg h0]
      rw [ih]
      simp only [omapKeys, List.map_cons, List.mem_cons]
      constructor
      · intro hn hor
        rcases hor with he | hm
        · exact h0 he.symm
        · exact hn hm
      · intro hn hm
        exact hn (Or.inr hm)

theorem mem_dedupFirstAux (k : Str) :
    ∀ (l seen : List Str), k ∈ dedupFirstAux l seen ↔ k ∈ l ∧ k ∉ seen := by
  intro l
  induction l with
  | nil => intro seen; simp [dedupFirstAux]
  | cons a rest ih =>
    intro seen
    by_cases ha : a ∈ seen
    · rw [dedupFirstAux, if_pos ha, ih]
      constructor
      · rintro ⟨h1, h2⟩
        exact ⟨List.mem_cons_of_mem a h1, h2⟩
      · rintro ⟨h1, h2⟩
        rcases List.mem_cons.mp h1 with h | h
        · exact absurd (h ▸ ha) h2
        · exact ⟨h, h2⟩
    · rw [dedupFirstAux, if_neg ha]
      by_cases hk : k = a
      · subst hk
        simp [ha]
      · simp only [List.mem_cons, hk, false_or]
        rw [ih]
        simp [hk, fun h : k = a => hk h]

theorem mem_dedupFirst (k : Str) (l : List Str) :
    k ∈ dedupFirst l ↔ k ∈ l := by
  rw [dedupFirst, mem_dedupFirstAux]
  simp

theorem dedupFirst_append_mem (k : Str) (l1 l2 : List Str) :
    k ∈ dedupFirst (l1 ++ l2) ↔ k ∈ l1 ∨ k ∈ l2 := by
  rw [mem_dedupFirst, List.mem_append]

/-! ### Claim theorems -/

/-- C2: the compaction trigger fires — `save()` is invoked when the pending
union empties — but `_appendUpdate` appends the triggering edit's update line
to the file only after the optimizer ran, so the edit leaves its own pending
update-log line on disk.  In the C2 scenario `save()` demonstrably runs (the
stale `*-k=bye` line is dropped and the in-memory log is emptied and reset),
yet the rewritten file ends with the fresh `*-k=hi` update-prefixed line. -/
theorem compaction_leaves_own_update_line :
    c2Run.2 = none ∧
    c2Run.1.state.updates = initUpdates ∧
    c2Run.1.files = [(str "app.i18n", [str "-k=hi", str "*-k=hi"])] ∧
    (str "*-k=hi").head? = some UpdateLine := by
  decide

/-- C3: after `updateValue` then a scoped `revert`, the pending log for the
key is emptied and the internally triggered `save()` compacts the file back
to its single baseline line — but `save`'s `_resetUpdates` sets
`state.updated` to a fresh empty object, so after the call `updated[fullKey]`
is absent instead of equal to `original[fullKey]` as claimed. -/
theorem revert_internal_save_clears_updated :
    c3Run.2 = none ∧
    c3Run.1.state.updates = initUpdates ∧
    omapFind c3Run.1.state.original (fkStr (str "app.i18n") (str "hello"))
      = some { key := str "hello", value := some (str "Hi"),
               approved := some true } ∧
    c3Run.1.state.updated = [] ∧
    c3Run.1.files = [(str "app.i18n", [str "+hello=Hi"])] := by
  decide

/-- C7: `renameKey` runs `copyKey` and then `this.deleteKey({ fromKey })`,
whose options object has no `key` property, so `deleteKey` reads
`key = undefined`, throws an invalid-key error, and the from-key stays
registered.  The claimed two-call sequence (`deleteKey({key: fromKey})`)
instead removes the from-key from the registry and fails differently, on the
separator-less delete line.  Final states and thrown errors differ. -/
theorem renameKey_not_copy_then_delete :
    c7Rename.2 = some invalidKeyErr ∧
    c7Rename.1.state.keys = [str "x", str "y"] ∧
    c7Sequence.2 = some (invalidLineErr (str "*!x")) ∧
    c7Sequence.1.state.keys = [str "y"] ∧
    c7Rename ≠ c7Sequence := by
  decide

/-- C9: `addKey` on a registered key throws key-exists and with zero locale
files throws no-locale-files, as claimed; but on the happy path the loop runs
`this.updateValue(file.name, key)` with two positional arguments against the
one-options-object wrapper, so `key` reads as `undefined` and the call throws
an invalid-key error right after the registry insertion — no empty
not-approved value line is ever appended to any file. -/
theorem addKey_happy_path_throws :
    (runOp (Op.addKey (some (str "a")))
      (loadedEngine [(str "app.i18n", [str "-a=1"])])).2 = some keyExistErr ∧
    (runOp (Op.addKey (some (str "b"))) (loadedEngine [])).2
      = some noI18nFilesErr ∧
    c9Run.2 = some invalidKeyErr ∧
    c9Run.1.state.keys = [str "a", str "b"] ∧
    c9Run.1.files = [(str "app.i18n", [str "-a=1"])] := by
  decide

/-- C4 counterexample: a `load()` that captures a duplicate-key error after an
earlier file's update lines were replayed completes (nothing thrown, the
duplicate-key cause captured in `state.error`) with `updates.length = 2` but
a before/after union of a single full key, because the optimizer pass that
recomputes the length is skipped on the error path. -/
theorem updatesLength_union_counterexample :
    c4Run.2 = none ∧
    c4Run.1.state.updates.length = 2 ∧
    (updateKeysOf c4Run.1.state).length = 1 := by
  decide

/-- C8 counterexample: loading a file holding only a comment line and saving
with zero pending edits rewrites the file with an extra blank not-approved
value line, so the round trip is not byte-identical. -/
theorem loadSave_not_byte_identical :
    c8Run.2 = none ∧
    (loadedEngine [(str "a.i18n", [str "#k=c"])]).state.updates.length = 0 ∧
    c8Run.1.files = [(str "a.i18n", [str "#k=c", str "-k="])] ∧
    c8Run.1.files ≠ [(str "a.i18n", [str "#k=c"])] := by
  decide

/-! ### The optimizer (C5) -/

theorem optimizeFn_original (k : Str) (st : EngineState) :
    (optimizeFn k st).original = st.original := by
  unfold optimizeFn
  cases omapFind st.original k <;> cases omapFind st.updated k <;>
    first
    | rfl
    | (dsimp only; split <;> rfl)

theorem optimizeFn_updated (k : Str) (st : EngineState) :
    (optimizeFn k st).updated = st.updated := by
  unfold optimizeFn
  cases omapFind st.original k <;> cases omapFind st.updated k <;>
    first
    | rfl
    | (dsimp only; split <;> rfl)

/-- The optimizer's per-key action never adds a key to `updates.before`. -/
theorem optimizeFn_before_none (k fk : Str) (st : EngineState)
    (h : omapFind st.updates.before fk = none) :
    omapFind (optimizeFn k st).updates.before fk = none := by
  unfold optimizeFn
  cases omapFind st.original k <;> cases omapFind st.updated k <;>
    first
    | exact h
    | (dsimp only
       split
       · by_cases hk : fk = k
         · subst hk; exact omapFind_erase_self _ _
         · rw [omapFind_erase_ne _ _ _ hk]; exact h
       · exact h)

/-- The optimizer's per-key action never adds a key to `updates.after`. -/
theorem optimizeFn_after_none (k fk : Str) (st : EngineState)
    (h : omapFind st.updates.after fk = none) :
    omapFind (optimizeFn k st).updates.after fk = none := by
  unfold optimizeFn
  cases omapFind st.original k <;> cases omapFind st.updated k <;>
    first
    | exact h
    | (dsimp only
       split
       · by_cases hk : fk = k
         · subst hk; exact omapFind_erase_self _ _
         · rw [omapFind_erase_ne _ _ _ hk]; exact h
       · exact h)

/-- At a key whose baseline and working entries agree under the `safeValue`
comparison, the optimizer's action deletes the key from both log sides. -/
theorem optimizeFn_erases (fk : Str) (st : EngineState) (o u : Translation)
    (ho : omapFind st.original fk = some o)
    (hu : omapFind st.updated fk = some u)
    (hc : safeValue o.comment = safeValue u.comment)
    (hv : safeValue o.value = safeValue u.value)
    (ha : o.approved.getD false = u.approved.getD false) :
    omapFind (optimizeFn fk st).updates.before fk = none ∧
      omapFind (optimizeFn fk st).updates.after fk = none := by
  unfold optimizeFn
  rw [ho, hu]
  dsimp only
  rw [if_pos ⟨hc, hv, ha⟩]
  exact ⟨omapFind_erase_self _ _, omapFind_erase_self _ _⟩

theorem foldl_optimizeFn_original (L : List Str) :
    ∀ (st : EngineState),
      (L.foldl (fun st k => optimizeFn k st) st).original = st.original := by
  induction L with
  | nil => intro st; rfl
  | cons a rest ih =>
    intro st
    rw [List.foldl_cons, ih, optimizeFn_original]

theorem foldl_optimizeFn_updated (L : List Str) :
    ∀ (st : EngineState),
      (L.foldl (fun st k => optimizeFn k st) st).updated = st.updated := by
  induction L with
  | nil => intro st; rfl
  | cons a rest ih =>
    intro st
    rw [List.foldl_cons, ih, optimizeFn_updated]

theorem foldl_optimizeFn_none (fk : Str) (L : List Str) :
    ∀ (st : EngineState),
      omapFind st.updates.before fk = none →
      omapFind st.updates.after fk = none →
      omapFind ((L.foldl (fun st k => optimizeFn k st) st).updates.before) fk
          = none ∧
        omapFind ((L.foldl (fun st k => optimizeFn k st) st).updates.after) fk
          = none := by
  induction L with
  | nil => intro st h1 h2; exact ⟨h1, h2⟩
  | cons a rest ih =>
    intro st h1 h2
    rw [List.foldl_cons]
    exact ih _ (optimizeFn_before_none a fk st h1)
      (optimizeFn_after_none a fk st h2)

theorem foldl_optimizeFn_erases (fk : Str) (o u : Translation)
    (hc : safeValue o.comment = safeValue u.comment)
    (hv : safeValue o.value = safeValue u.value)
    (ha : o.approved.getD false = u.approved.getD false) (L : List Str) :
    ∀ (st : EngineState), fk ∈ L →
      omapFind st.original fk = some o →
      omapFind st.updated fk = some u →
      omapFind ((L.foldl (fun st k => optimizeFn k st) st).updates.before) fk
          = none ∧
        omapFind ((L.foldl (fun st k => optimizeFn k st) st).updates.after) fk
          = none := by
  induction L with
  | nil => intro st hmem; cases hmem
  | cons a rest ih =>
    intro st hmem ho hu
    rw [List.foldl_cons]
    by_cases hak : fk = a
    · subst hak
      obtain ⟨hb, haf⟩ := optimizeFn_erases fk st o u ho hu hc hv ha
      exact foldl_optimizeFn_none fk rest _ hb haf
    · have hmem' : fk ∈ rest := by
        rcases List.mem_cons.mp hmem with h | h
        · exact absurd h hak
        · exact h
      exact ih _ hmem' (by rw [optimizeFn_original]; exact ho)
        (by rw [optimizeFn_updated]; exact hu)

/-- The wrapped `save()` call never re-adds a key to either log side: it
either throws at the gate (leaving the state alone) or resets the log. -/
theorem runWrapped_save_none (e' : Engine) (fk : Str)
    (h1 : omapFind e'.state.updates.before fk = none)
    (h2 : omapFind e'.state.updates.after fk = none) :
    omapFind (runWrapped (str "save") saveBody e').1.state.updates.before fk
        = none ∧
      omapFind (runWrapped (str "save") saveBody e').1.state.updates.after fk
        = none := by
  unfold runWrapped
  cases validateAction (str "save") e'.state with
  | some err => exact ⟨h1, h2⟩
  | none => exact ⟨rfl, rfl⟩

/-- C5: for every full key in the union of `updates.before` and
`updates.after`, if the baseline entry and working entry both exist and are
equal under the engine's newline-normalized comparison (`safeValue` of value
and comment, and `approved` defaulting to false), then the optimizer run
(`_optimizeUpdates`, including a possible compaction `save`) removes that
full key from both `updates.before` and `updates.after`. -/
theorem optimizer_removes_noop_updates (e : Engine) (fullKey : Str)
    (o u : Translation)
    (hmem : fullKey ∈ updateKeysOf e.state)
    (ho : omapFind e.state.original fullKey = some o)
    (hu : omapFind e.state.updated fullKey = some u)
    (hc : safeValue o.comment = safeValue u.comment)
    (hv : safeValue o.value = safeValue u.value)
    (ha : o.approved.getD false = u.approved.getD false) :
    omapFind (optimizeUpdates e).1.state.updates.before fullKey = none ∧
      omapFind (optimizeUpdates e).1.state.updates.after fullKey = none := by
  have hfold := foldl_optimizeFn_erases fullKey o u hc hv ha
    (updateKeysOf e.state) e.state hmem ho hu
  have hne : (updateKeysOf e.state).isEmpty = false := by
    cases hL : updateKeysOf e.state with
    | nil => rw [hL] at hmem; cases hmem
    | cons a rest => rfl
  unfold optimizeUpdates changeUpdates
  simp only [hne, Bool.false_eq_true, if_false]
  split
  · exact runWrapped_save_none _ fullKey hfold.1 hfold.2
  · exact hfold

/-- C5 witness: a pending no-op update on a concrete engine is deleted from
both log sides by the optimizer. -/
theorem optimizer_removes_noop_updates_witness :
    omapFind (optimizeUpdates w5E).1.state.updates.before w5FK = none ∧
      omapFind (optimizeUpdates w5E).1.state.updates.after w5FK = none :=
  optimizer_removes_noop_updates w5E w5FK w5T w5T (by decide) (by decide)
    (by decide) (by decide) (by decide) (by decide)

/-! ### Parse inversion for constructed lines -/

theorem jsIndexOf_append (l1 l2 : Str) (c : Char) (h : c ∉ l1) :
    jsIndexOf (l1 ++ c :: l2) c = some l1.length := by
  induction l1 with
  | nil => simp [jsIndexOf]
  | cons a as ih =>
    have ha : ¬ a = c := fun he => h (he ▸ List.mem_cons_self a as)
    have has : c ∉ as := fun hm => h (List.mem_cons_of_mem a hm)
    rw [List.cons_append, jsIndexOf, if_neg ha, ih has]
    rfl

/-- Decoding a constructed baseline line `m ++ k ++ sep ++ v` at type index 0
recovers its parts, provided the marker is one of the four kinds and neither
the marker nor the key contains the separator. -/
theorem parseLine_base (m : Char) (k v : Str)
    (hm : m = CommentLine ∨ m = ApprovedLine ∨ m = NotApprovedLine ∨
      m = DeleteKeyLine)
    (hk : KeyValueSeparator ∉ k) (hmne : m ≠ KeyValueSeparator) :
    parseLine (m :: (k ++ KeyValueSeparator :: v)) 0 =
      .ok { type := m, key := k, value := v } := by
  have hidx : jsIndexOf (m :: (k ++ KeyValueSeparator :: v)) KeyValueSeparator
      = some (k.length + 1) := by
    have h0 : jsIndexOf ((m :: k) ++ KeyValueSeparator :: v) KeyValueSeparator
        = some (m :: k).length := jsIndexOf_append (m :: k) v KeyValueSeparator
      (by
        intro hmem
        rcases List.mem_cons.mp hmem with he | hmem2
        · exact hmne he.symm
        · exact hk hmem2)
    exact h0
  unfold parseLine
  rw [show (m :: (k ++ KeyValueSeparator :: v)).get? 0 = some m from rfl]
  dsimp only
  rw [if_pos hm, hidx]
  dsimp only
  rw [if_neg (by omega)]
  have hkey : ((m :: (k ++ KeyValueSeparator :: v)).drop 1).take
      (k.length + 1 - 1) = k := by
    have h1 : (m :: (k ++ KeyValueSeparator :: v)).drop 1
        = k ++ KeyValueSeparator :: v := rfl
    rw [h1]
    have h2 : k.length + 1 - 1 = k.length := by omega
    rw [h2, List.take_left]
  have hval : (m :: (k ++ KeyValueSeparator :: v)).drop (k.length + 1 + 1)
      = v := by
    have h1 : m :: (k ++ KeyValueSeparator :: v)
        = ((m :: k) ++ [KeyValueSeparator]) ++ v := by simp
    have h2 : k.length + 1 + 1 = ((m :: k) ++ [KeyValueSeparator]).length := by
      simp
    rw [h1, h2, List.drop_left]
  rw [hkey, hval]

/-- Decoding a constructed update line `* ++ m ++ k ++ sep ++ v` at type
index 1 recovers its parts. -/
theorem parseLine_update (m : Char) (k v : Str)
    (hm : m = CommentLine ∨ m = ApprovedLine ∨ m = NotApprovedLine ∨
      m = DeleteKeyLine)
    (hk : KeyValueSeparator ∉ k) (hmne : m ≠ KeyValueSeparator) :
    parseLine (UpdateLine :: m :: (k ++ KeyValueSeparator :: v)) 1 =
      .ok { type := m, key := k, value := v } := by
  have hidx : jsIndexOf (UpdateLine :: m :: (k ++ KeyValueSeparator :: v))
      KeyValueSeparator = some (k.length + 2) := by
    have h0 : jsIndexOf ((UpdateLine :: m :: k) ++ KeyValueSeparator :: v)
        KeyValueSeparator = some (UpdateLine :: m :: k).length :=
      jsIndexOf_append (UpdateLine :: m :: k) v KeyValueSeparator
      (by
        intro hmem
        rcases List.mem_cons.mp hmem with he | hmem2
        · exact absurd he.symm (by decide)
        · rcases List.mem_cons.mp hmem2 with he | hmem3
          · exact hmne he.symm
          · exact hk hmem3)
    rw [show (UpdateLine :: m :: k).length = k.length + 2 by simp] at h0
    exact h0
  unfold parseLine
  rw [show (UpdateLine :: m :: (k ++ KeyValueSeparator :: v)).get? 1 = some m
    from rfl]
  dsimp only
  rw [if_pos hm, hidx]
  dsimp only
  rw [if_neg (by omega)]
  have hkey : ((UpdateLine :: m :: (k ++ KeyValueSeparator :: v)).drop 2).take
      (k.length + 2 - 2) = k := by
    have h1 : (UpdateLine :: m :: (k ++ KeyValueSeparator :: v)).drop 2
        = k ++ KeyValueSeparator :: v := rfl
    rw [h1]
    have h2 : k.length + 2 - 2 = k.length := by omega
    rw [h2, List.take_left]
  have hval : (UpdateLine :: m :: (k ++ KeyValueSeparator :: v)).drop
      (k.length + 2 + 1) = v := by
    have h1 : UpdateLine :: m :: (k ++ KeyValueSeparator :: v)
        = ((UpdateLine :: m :: k) ++ [KeyValueSeparator]) ++ v := by simp
    have h2 : k.length + 2 + 1
        = ((UpdateLine :: m :: k) ++ [KeyValueSeparator]).length := by simp
    rw [h1, h2, List.drop_left]
  rw [hkey, hval]

theorem updateState_value_eq (fn k sv : Str) (m : Char) (st : EngineState)
    (hm : m = ApprovedLine ∨ m = NotApprovedLine)
    (hk : KeyValueSeparator ∉ k)
    (hnl : '\n' ∉ (UpdateLine :: m :: (k ++ KeyValueSeparator :: sv))) :
    updateState fn (UpdateLine :: m :: (k ++ KeyValueSeparator :: sv)) st =
      .ok { st with
            updates := { st.updates with
              length := st.updates.length + 1,
              before := omapSet st.updates.before (fkStr fn k)
                (omapFind st.original (fkStr fn k)),
              after := omapSet st.updates.after (fkStr fn k)
                (tValUpd st.updates.after (fkStr fn k) k sv m) },
            updated := omapSet st.updated (fkStr fn k)
              (tValUpd st.updates.after (fkStr fn k) k sv m) } := by
  rcases hm with rfl | rfl <;>
    (unfold updateState
     rw [if_neg hnl,
       parseLine_update _ k sv (by simp [CommentLine, ApprovedLine,
         NotApprovedLine, DeleteKeyLine]) hk (by decide)]
     dsimp only
     rw [if_neg (by decide)]
     unfold resolveTranslation tValUpd
     dsimp only
     rw [if_neg (by decide)])

theorem updateState_comment_eq (fn k sv : Str) (st : EngineState)
    (hk : KeyValueSeparator ∉ k)
    (hnl : '\n' ∉ (UpdateLine :: CommentLine :: (k ++ KeyValueSeparator :: sv))) :
    updateState fn (UpdateLine :: CommentLine :: (k ++ KeyValueSeparator :: sv))
        st =
      .ok { st with
            updates := { st.updates with
              length := st.updates.length + 1,
              before := omapSet st.updates.before (fkStr fn k)
                (omapFind st.original (fkStr fn k)),
              after := omapSet st.updates.after (fkStr fn k)
                (tComUpd st.updates.after (fkStr fn k) k sv) },
            updated := omapSet st.updated (fkStr fn k)
              (tComUpd st.updates.after (fkStr fn k) k sv) } := by
  unfold updateState
  rw [if_neg hnl,
    parseLine_update _ k sv (by simp [CommentLine, ApprovedLine,
      NotApprovedLine, DeleteKeyLine]) hk (by decide)]
  dsimp only
  rw [if_neg (by decide)]
  unfold resolveTranslation tComUpd
  dsimp only
  rw [if_pos rfl]

/-! ### What the optimizer run preserves -/

theorem optimizeFn_after_submap (k fk : Str) (st : EngineState) :
    omapFind (optimizeFn k st).updates.after fk
        = omapFind st.updates.after fk ∨
      omapFind (optimizeFn k st).updates.after fk = none := by
  unfold optimizeFn
  cases omapFind st.original k <;> cases omapFind st.updated k <;>
    first
    | exact Or.inl rfl
    | (dsimp only
       split
       · by_cases hfk : fk = k
         · subst hfk
           exact Or.inr (omapFind_erase_self _ _)
         · exact Or.inl (omapFind_erase_ne _ _ _ hfk)
       · exact Or.inl rfl)

theorem foldl_optimizeFn_after_submap (fk : Str) (L : List Str) :
    ∀ (st : EngineState),
      omapFind ((L.foldl (fun st k => optimizeFn k st) st).updates.after) fk
          = omapFind st.updates.after fk ∨
        omapFind ((L.foldl (fun st k => optimizeFn k st) st).updates.after) fk
          = none := by
  induction L with
  | nil => intro st; exact Or.inl rfl
  | cons a rest ih =>
    intro st
    rw [List.foldl_cons]
    rcases ih (optimizeFn a st) with h | h
    · rcases optimizeFn_after_submap a fk st with h2 | h2
      · exact Or.inl (h.trans h2)
      · exact Or.inr (h.trans h2)
    · exact Or.inr h

theorem runWrapped_save_updated (e' : Engine) :
    (runWrapped (str "save") saveBody e').1.state.updated = e'.state.updated ∨
      (runWrapped (str "save") saveBody e').1.state.updated = [] := by
  unfold runWrapped
  cases validateAction (str "save") e'.state with
  | some err => exact Or.inl rfl
  | none => exact Or.inr rfl

theorem runWrapped_save_after (e' : Engine) (fk : Str) :
    omapFind (runWrapped (str "save") saveBody e').1.state.updates.after fk
        = omapFind e'.state.updates.after fk ∨
      omapFind (runWrapped (str "save") saveBody e').1.state.updates.after fk
        = none := by
  unfold runWrapped
  cases validateAction (str "save") e'.state with
  | some err => exact Or.inl rfl
  | none => exact Or.inr rfl

/-- The optimizer run leaves `state.updated` untouched unless its compaction
`save` resets it to the fresh empty map. -/
theorem optimizeUpdates_updated (e : Engine) :
    (optimizeUpdates e).1.state.updated = e.state.updated ∨
      (optimizeUpdates e).1.state.updated = [] := by
  unfold optimizeUpdates changeUpdates
  by_cases h : (updateKeysOf e.state).isEmpty
  · simp only [h, if_true]
    exact Or.inl trivial
  · simp only [h, Bool.false_eq_true, if_false]
    split
    · rcases runWrapped_save_updated _ with h2 | h2
      · exact Or.inl (h2.trans (foldl_optimizeFn_updated _ _))
      · exact Or.inr h2
    · exact Or.inl (foldl_optimizeFn_updated _ _)

/-- The optimizer run can only erase entries of `updates.after`. -/
theorem optimizeUpdates_after_submap (e : Engine) (fk : Str) :
    omapFind (optimizeUpdates e).1.state.updates.after fk
        = omapFind e.state.updates.after fk ∨
      omapFind (optimizeUpdates e).1.state.updates.after fk = none := by
  unfold optimizeUpdates changeUpdates
  by_cases h : (updateKeysOf e.state).isEmpty
  · simp only [h, if_true]
    exact Or.inl trivial
  · simp only [h, Bool.false_eq_true, if_false]
    split
    · rcases runWrapped_save_after _ fk with h2 | h2
      · rcases foldl_optimizeFn_after_submap fk (updateKeysOf e.state)
          e.state with h3 | h3
        · exact Or.inl (h2.trans h3)
        · exact Or.inr (h2.trans h3)
      · exact Or.inr h2
    · exact foldl_optimizeFn_after_submap fk (updateKeysOf e.state) e.state

/-- Decomposition of a successful `_appendUpdate` call. -/
theorem appendUpdate_cases (fn line : Str) (e e' : Engine)
    (hrun : appendUpdate fn line e = (e', none)) :
    ∃ st1, updateState fn (UpdateLine :: line) e.state = .ok st1 ∧
      ∃ e1, optimizeUpdates { e with state := st1 } = (e1, none) ∧
        e'.state = e1.state := by
  unfold appendUpdate at hrun
  rcases hus : updateState fn (UpdateLine :: line) e.state with err | st1
  · rw [hus] at hrun
    simp only [Prod.mk.injEq] at hrun
    exact absurd hrun.2 (by simp)
  · rw [hus] at hrun
    dsimp only at hrun
    rcases hO : optimizeUpdates { e with state := st1 } with ⟨e1, oerr⟩
    rw [hO] at hrun
    cases oerr with
    | some err =>
      simp only [Prod.mk.injEq] at hrun
      exact absurd hrun.2 (by simp)
    | none =>
      dsimp only at hrun
      simp only [Prod.mk.injEq, and_true] at hrun
      refine ⟨st1, rfl, e1, hO, ?_⟩
      rw [← hrun]

theorem validateKey_none (k : Str) (h : validateKey (some k) = none) :
    k ≠ [] ∧ KeyValueSeparator ∉ k := by
  unfold validateKey at h
  dsimp only at h
  by_cases hc : k ≠ [] ∧ KeyValueSeparator ∉ k
  · exact hc
  · rw [if_neg hc] at h
    exact absurd h (by simp)

/-- A successful `_appendUpdate` of a constructed value line stores an entry
whose `value` field is exactly the line's payload, both in the working map
and in `updates.after` (unless the compaction save wiped the working map or
the optimizer dropped the after-entry).  The predicate `P` transports
knowledge about the comment field of the prior after-entry to the result. -/
theorem appendUpdate_value_field (fn k sv : Str) (m : Char) (e e' : Engine)
    (P : Option Str → Prop)
    (hm : m = ApprovedLine ∨ m = NotApprovedLine)
    (hk : KeyValueSeparator ∉ k)
    (hP0 : P none)
    (hPafter : ∀ t, omapFind e.state.updates.after (fkStr fn k) = some t →
      P t.comment)
    (hrun : appendUpdate fn (m :: k ++ KeyValueSeparator :: sv) e
      = (e', none)) :
    (e'.state.updated = [] ∨
      ∃ t, omapFind e'.state.updated (fkStr fn k) = some t ∧
        t.value = some sv ∧ P t.comment) ∧
    (omapFind e'.state.updates.after (fkStr fn k) = none ∨
      ∃ t, omapFind e'.state.updates.after (fkStr fn k) = some t ∧
        t.value = some sv ∧ P t.comment) := by
  obtain ⟨st1, hus, e1, hO, hst⟩ := appendUpdate_cases _ _ _ _ hrun
  rw [show UpdateLine :: (m :: k ++ KeyValueSeparator :: sv)
    = UpdateLine :: m :: (k ++ KeyValueSeparator :: sv) from rfl] at hus
  by_cases hnl : '\n' ∈ (UpdateLine :: m :: (k ++ KeyValueSeparator :: sv))
  · rw [show updateState fn (UpdateLine :: m :: (k ++ KeyValueSeparator :: sv))
        e.state = .error (invalidLineErr
          (UpdateLine :: m :: (k ++ KeyValueSeparator :: sv))) from by
      unfold updateState; rw [if_pos hnl]] at hus
    exact absurd hus (by simp)
  · rw [updateState_value_eq fn k sv m e.state hm hk hnl] at hus
    have hst1 := (Except.ok.inj hus).symm
    have hPt : P (tValUpd e.state.updates.after (fkStr fn k) k sv m).comment := by
      unfold tValUpd
      cases hfind : omapFind e.state.updates.after (fkStr fn k) with
      | none => simpa using hP0
      | some t => simpa using hPafter t hfind
    constructor
    · rcases optimizeUpdates_updated { e with state := st1 } with h | h
      · rw [hO] at h
        refine Or.inr ⟨tValUpd e.state.updates.after (fkStr fn k) k sv m,
          ?_, rfl, hPt⟩
        rw [hst, h, hst1]
        exact omapFind_set_self _ _ _
      · rw [hO] at h
        rw [hst]
        exact Or.inl h
    · rcases optimizeUpdates_after_submap { e with state := st1 }
        (fkStr fn k) with h | h
      · rw [hO] at h
        refine Or.inr ⟨tValUpd e.state.updates.after (fkStr fn k) k sv m,
          ?_, rfl, hPt⟩
        rw [hst, h, hst1]
        exact omapFind_set_self _ _ _
      · rw [hO] at h
        rw [hst]
        exact Or.inl h

/-- The comment-line analogue of `appendUpdate_value_field`: the stored
entry's `comment` field is exactly the line's payload. -/
theorem appendUpdate_comment_field (fn k sv : Str) (e e' : Engine)
    (hk : KeyValueSeparator ∉ k)
    (hrun : appendUpdate fn (CommentLine :: k ++ KeyValueSeparator :: sv) e
      = (e', none)) :
    (e'.state.updated = [] ∨
      ∃ t, omapFind e'.state.updated (fkStr fn k) = some t ∧
        t.comment = some sv) ∧
    (omapFind e'.state.updates.after (fkStr fn k) = none ∨
      ∃ t, omapFind e'.state.updates.after (fkStr fn k) = some t ∧
        t.comment = some sv) := by
  obtain ⟨st1, hus, e1, hO, hst⟩ := appendUpdate_cases _ _ _ _ hrun
  rw [show UpdateLine :: (CommentLine :: k ++ KeyValueSeparator :: sv)
    = UpdateLine :: CommentLine :: (k ++ KeyValueSeparator :: sv)
    from rfl] at hus
  by_cases hnl : '\n' ∈ (UpdateLine :: CommentLine :: (k ++ KeyValueSeparator :: sv))
  · rw [show updateState fn
        (UpdateLine :: CommentLine :: (k ++ KeyValueSeparator :: sv))
        e.state = .error (invalidLineErr
          (UpdateLine :: CommentLine :: (k ++ KeyValueSeparator :: sv))) from by
      unfold updateState; rw [if_pos hnl]] at hus
    exact absurd hus (by simp)
  · rw [updateState_comment_eq fn k sv e.state hk hnl] at hus
    have hst1 := (Except.ok.inj hus).symm
    constructor
    · rcases optimizeUpdates_updated { e with state := st1 } with h | h
      · rw [hO] at h
        refine Or.inr ⟨tComUpd e.state.updates.after (fkStr fn k) k sv,
          ?_, rfl⟩
        rw [hst, h, hst1]
        exact omapFind_set_self _ _ _
      · rw [hO] at h
        rw [hst]
        exact Or.inl h
    · rcases optimizeUpdates_after_submap { e with state := st1 }
        (fkStr fn k) with h | h
      · rw [hO] at h
        refine Or.inr ⟨tComUpd e.state.updates.after (fkStr fn k) k sv,
          ?_, rfl⟩
        rw [hst, h, hst1]
        exact omapFind_set_self _ _ _
      · rw [hO] at h
        rw [hst]
        exact Or.inl h

theorem normStr_safeValue (v : Option Str) : normStr (safeValue v) :=
  ⟨jsTrim_safeValue v, newline_not_mem_safeValue v⟩

/-- C10: every value and comment stored into the working map through the
public edit operations (`updateValue`, `updateApproved`, `updateComment`,
`updateTranslation`) is first normalized by `safeValue` — trimmed, with every
embedded newline replaced by the placeholder symbol — so after a successful
edit the field(s) the operation wrote never contain leading/trailing
whitespace or a literal newline character. -/
theorem editOps_store_normalized :
    (∀ (e e' : Engine) (fn k : Str) (v : Option Str),
      runOp (.updateValue (some fn) (some k) v) e = (e', none) →
      ∀ t, omapFind e'.state.updated (fkStr fn k) = some t →
        t.value = some (safeValue v) ∧ normStr (safeValue v)) ∧
    (∀ (e e' : Engine) (fn k : Str) (c : Option Str),
      runOp (.updateComment (some fn) (some k) c) e = (e', none) →
      ∀ t, omapFind e'.state.updated (fkStr fn k) = some t →
        t.comment = some (safeValue c) ∧ normStr (safeValue c)) ∧
    (∀ (e e' : Engine) (fn k : Str) (ap : Bool),
      runOp (.updateApproved (some fn) (some k) ap) e = (e', none) →
      ∀ t, omapFind e'.state.updated (fkStr fn k) = some t →
        t.value = some (safeValue
          ((omapFind e.state.updated (fkStr fn k)).bind Translation.value)) ∧
        normStr (safeValue
          ((omapFind e.state.updated (fkStr fn k)).bind Translation.value))) ∧
    (∀ (e e' : Engine) (fn k : Str) (v c : Option Str) (ap : Bool),
      runOp (.updateTranslation (some fn) (some k) v c ap) e = (e', none) →
      ∀ t, omapFind e'.state.updated (fkStr fn k) = some t →
        t.value = some (safeValue v) ∧
        (t.comment = none ∨ t.comment = some (safeValue c)) ∧
        normStr (safeValue v) ∧ normStr (safeValue c)) := by
  refine ⟨?_, ?_, ?_, ?_⟩
  · intro e e' fn k v hrun t ht
    unfold runOp runWrapped fnNameOf bodyOf at hrun
    rcases hva : validateAction (str "updateValue") e.state with _ | err <;>
      rw [hva] at hrun
    case some => exact absurd (congrArg Prod.snd hrun) (by simp)
    dsimp only at hrun
    unfold updateValueBody at hrun
    rcases hvk : validateKey (some k) with _ | err <;> rw [hvk] at hrun
    case some => exact absurd (congrArg Prod.snd hrun) (by simp)
    dsimp only [Option.getD] at hrun
    obtain ⟨hupd, -⟩ := appendUpdate_value_field fn k (safeValue v)
      NotApprovedLine e e' (fun _ => True) (Or.inr rfl)
      (validateKey_none k hvk).2 trivial (fun _ _ => trivial) hrun
    rcases hupd with h | ⟨t1, hfind, hval, -⟩
    · rw [h] at ht
      exact absurd ht (by simp [omapFind])
    · have := Option.some.inj (hfind.symm.trans ht)
      exact ⟨this ▸ hval, normStr_safeValue v⟩
  · intro e e' fn k c hrun t ht
    unfold runOp runWrapped fnNameOf bodyOf at hrun
    rcases hva : validateAction (str "updateComment") e.state with _ | err <;>
      rw [hva] at hrun
    case some => exact absurd (congrArg Prod.snd hrun) (by simp)
    dsimp only at hrun
    unfold updateCommentBody at hrun
    rcases hvk : validateKey (some k) with _ | err <;> rw [hvk] at hrun
    case some => exact absurd (congrArg Prod.snd hrun) (by simp)
    dsimp only [Option.getD] at hrun
    obtain ⟨hupd, -⟩ := appendUpdate_comment_field fn k (safeValue c) e e'
      (validateKey_none k hvk).2 hrun
    rcases hupd with h | ⟨t1, hfind, hcom⟩
    · rw [h] at ht
      exact absurd ht (by simp [omapFind])
    · have := Option.some.inj (hfind.symm.trans ht)
      exact ⟨this ▸ hcom, normStr_safeValue c⟩
  · intro e e' fn k ap hrun t ht
    unfold runOp runWrapped fnNameOf bodyOf at hrun
    rcases hva : validateAction (str "updateApproved") e.state with _ | err <;>
      rw [hva] at hrun
    case some => exact absurd (congrArg Prod.snd hrun) (by simp)
    dsimp only at hrun
    unfold updateApprovedBody at hrun
    rcases hvk : validateKey (some k) with _ | err <;> rw [hvk] at hrun
    case some => exact absurd (congrArg Prod.snd hrun) (by simp)
    dsimp only [Option.getD] at hrun
    obtain ⟨hupd, -⟩ := appendUpdate_value_field fn k
      (safeValue ((omapFind e.state.updated (fkStr fn k)).bind
        Translation.value))
      (if ap then ApprovedLine else NotApprovedLine) e e' (fun _ => True)
      (by cases ap <;> simp) (validateKey_none k hvk).2 trivial
      (fun _ _ => trivial) hrun
    rcases hupd with h | ⟨t1, hfind, hval, -⟩
    · rw [h] at ht
      exact absurd ht (by simp [omapFind])
    · have := Option.some.inj (hfind.symm.trans ht)
      exact ⟨this ▸ hval, normStr_safeValue _⟩
  · intro e e' fn k v c ap hrun t ht
    unfold runOp runWrapped fnNameOf bodyOf at hrun
    rcases hva : validateAction (str "updateTranslation") e.state
      with _ | err <;> rw [hva] at hrun
    case some => exact absurd (congrArg Prod.snd hrun) (by simp)
    dsimp only at hrun
    unfold updateTranslationBody at hrun
    rcases hvk : validateKey (some k) with _ | err <;> rw [hvk] at hrun
    case some => exact absurd (congrArg Prod.snd hrun) (by simp)
    dsimp only [Option.getD] at hrun
    rcases hA1 : appendUpdate fn
        (CommentLine :: k ++ KeyValueSeparator :: safeValue c) e
      with ⟨e1, oerr1⟩
    rw [hA1] at hrun
    cases oerr1 with
    | some err => exact absurd (congrArg Prod.snd hrun) (by simp)
    | none =>
      dsimp only at hrun
      obtain ⟨-, hAfter⟩ := appendUpdate_comment_field fn k (safeValue c) e e1
        (validateKey_none k hvk).2 hA1
      obtain ⟨hupd, -⟩ := appendUpdate_value_field fn k (safeValue v)
        (if ap then ApprovedLine else NotApprovedLine) e1 e'
        (fun oc => oc = none ∨ oc = some (safeValue c))
        (by cases ap <;> simp) (validateKey_none k hvk).2 (Or.inl rfl)
        (by
          intro t2 ht2
          rcases hAfter with h | ⟨t3, hfind3, hcom3⟩
          · rw [h] at ht2
            exact absurd ht2 (by simp)
          · have := Option.some.inj (hfind3.symm.trans ht2)
            exact Or.inr (this ▸ hcom3)) hrun
      rcases hupd with h | ⟨t1, hfind, hval, hP⟩
      · rw [h] at ht
        exact absurd ht (by simp [omapFind])
      · have heq := Option.some.inj (hfind.symm.trans ht)
        exact ⟨heq ▸ hval, heq ▸ hP, normStr_safeValue v, normStr_safeValue c⟩

/-- C10 witness: the concrete edit stores the trimmed, newline-escaped value
and that value is normalized. -/
theorem editOps_store_normalized_witness :
    w10T.value = some (safeValue (some (str "ne\nw "))) ∧
      normStr (safeValue (some (str "ne\nw "))) :=
  editOps_store_normalized.1 w10E w10Run.1 (str "a.i18n") (str "x")
    (some (str "ne\nw ")) (by decide) w10T (by decide)

theorem omapFind_singleton {α : Type} (a : Str) (x : α) :
    omapFind [(a, x)] a = some x := by
  unfold omapFind
  rw [if_pos rfl]

theorem omapSet_singleton {α : Type} (a : Str) (x y : α) :
    omapSet [(a, x)] a y = [(a, y)] := by
  unfold omapSet
  rw [if_pos rfl]

theorem load_dup_step1 (n k v1 : Str) (hk : KeyValueSeparator ∉ k) :
    loadLineStep n 1 (NotApprovedLine :: (k ++ KeyValueSeparator :: v1))
        ⟨initState, [], [], [], []⟩ =
      (⟨{ initState with
          original := [(fkStr n k, dupT k v1)],
          updated := [(fkStr n k, dupT k v1)] },
        [k], [k], [], []⟩, none) := by
  unfold loadLineStep
  rw [if_neg (show ¬ (NotApprovedLine :: (k ++ KeyValueSeparator :: v1)).head?
      = some UpdateLine from fun h =>
    absurd (Option.some.inj h) (by decide : ¬ NotApprovedLine = UpdateLine))]
  rw [parseLine_base NotApprovedLine k v1
    (Or.inr (Or.inr (Or.inl rfl))) hk (by decide)]
  dsimp only
  rw [if_neg (by simp : ¬ (if NotApprovedLine = CommentLine
    then k ∈ ([] : List Str) else k ∈ ([] : List Str)))]
  rfl

theorem load_dup_step2 (n k v1 v2 : Str) (hk : KeyValueSeparator ∉ k) :
    loadLineStep n 2 (NotApprovedLine :: (k ++ KeyValueSeparator :: v2))
        ⟨{ initState with
            original := [(fkStr n k, dupT k v1)],
            updated := [(fkStr n k, dupT k v1)] },
          [k], [k], [], []⟩ =
      (⟨{ initState with
          original := [(fkStr n k, dupT k v2)],
          updated := [(fkStr n k, dupT k v2)] },
        [k], [k], [], []⟩, some (dupErrAt n k)) := by
  unfold loadLineStep
  rw [if_neg (show ¬ (NotApprovedLine :: (k ++ KeyValueSeparator :: v2)).head?
      = some UpdateLine from fun h =>
    absurd (Option.some.inj h) (by decide : ¬ NotApprovedLine = UpdateLine))]
  rw [parseLine_base NotApprovedLine k v2
    (Or.inr (Or.inr (Or.inl rfl))) hk (by decide)]
  dsimp only
  unfold resolveTranslation
  simp only [omapFind_singleton, Option.getD_some, omapSet_singleton]
  rw [if_pos (show (if NotApprovedLine = CommentLine
      then k ∈ ([] : List Str) else k ∈ [k]) from by
    rw [if_neg (by decide : ¬ NotApprovedLine = CommentLine)]
    simp)]
  rfl

theorem validateAction_load (st : EngineState) :
    validateAction (str "load") st = none := by
  unfold validateAction
  rw [if_pos (Or.inl rfl)]

/-- C6: two value lines for the same key in one locale file during `load()`
produce a duplicate-key error annotated with the file name and line number
(`[n:2]`), captured into `state.error` rather than thrown; `loaded` still
becomes true; every subsequently gated operation is rejected with a
not-resolved error wrapping the captured cause; and a successful `load()`
over corrected file contents clears the error. -/
theorem load_duplicateKey_captured (n k v1 v2 : Str) (e : Engine)
    (hk : KeyValueSeparator ∉ k)
    (hfiles : e.files = [(n,
      [NotApprovedLine :: (k ++ KeyValueSeparator :: v1),
       NotApprovedLine :: (k ++ KeyValueSeparator :: v2)])]) :
    (runOp Op.load e).2 = none ∧
    (runOp Op.load e).1.state.error = some (dupErrAt n k) ∧
    (dupErrAt n k).code = ErrCode.duplicateKey ∧
    (dupErrAt n k).stateError = true ∧
    (runOp Op.load e).1.state.loaded = true ∧
    (∀ fnName, ¬ (fnName = str "load" ∨ fnName = str "connect" ∨
        fnName = str "export") →
      validateAction fnName (runOp Op.load e).1.state
        = some (notResolvedErr (dupErrAt n k))) ∧
    (runOp Op.load { e with files :=
        [(n, [NotApprovedLine ::
          (k ++ KeyValueSeparator :: v1)])] }).1.state.error = none := by
  obtain ⟨st0, fs0⟩ := e
  dsimp only at hfiles
  subst hfiles
  have hload : runOp Op.load
      (⟨st0, [(n, [NotApprovedLine :: (k ++ KeyValueSeparator :: v1),
        NotApprovedLine :: (k ++ KeyValueSeparator :: v2)])]⟩ : Engine) =
      (⟨{ keys := [], updates := initUpdates,
          original := [(fkStr n k, dupT k v2)],
          updated := [(fkStr n k, dupT k v2)],
          error := some (dupErrAt n k), loaded := true },
        [(n, [NotApprovedLine :: (k ++ KeyValueSeparator :: v1),
          NotApprovedLine :: (k ++ KeyValueSeparator :: v2)])]⟩, none) := by
    unfold runOp runWrapped fnNameOf bodyOf
    rw [validateAction_load]
    dsimp only
    unfold loadOp loadFilesGo loadFile
    rw [show takeLines [NotApprovedLine :: (k ++ KeyValueSeparator :: v1),
      NotApprovedLine :: (k ++ KeyValueSeparator :: v2)]
      = [NotApprovedLine :: (k ++ KeyValueSeparator :: v1),
         NotApprovedLine :: (k ++ KeyValueSeparator :: v2)] from rfl]
    unfold loadLinesGo
    rw [show (0 : Nat) + 1 = 1 from rfl, load_dup_step1 n k v1 hk]
    dsimp only
    unfold loadLinesGo
    rw [show (1 : Nat) + 1 = 2 from rfl, load_dup_step2 n k v1 v2 hk]
    rfl
  refine ⟨?_, ?_, rfl, rfl, ?_, ?_, ?_⟩
  · rw [hload]
  · rw [hload]
  · rw [hload]
  · intro fnName h
    rw [hload]
    dsimp only
    unfold validateAction
    rw [if_neg h, if_neg (show ¬¬(true = true) from not_not_intro rfl)]
  · dsimp only
    unfold runOp runWrapped fnNameOf bodyOf
    rw [validateAction_load]
    dsimp only
    unfold loadOp loadFilesGo loadFile
    rw [show takeLines [NotApprovedLine :: (k ++ KeyValueSeparator :: v1)]
      = [NotApprovedLine :: (k ++ KeyValueSeparator :: v1)] from rfl]
    unfold loadLinesGo
    rw [show (0 : Nat) + 1 = 1 from rfl, load_dup_step1 n k v1 hk]
    rfl

theorem omapSet_ne_nil {α : Type} (m : List (Str × α)) (k : Str) (v : α) :
    omapSet m k v ≠ [] := by
  cases m with
  | nil => simp [omapSet]
  | cons p rest =>
    obtain ⟨k0, w⟩ := p
    unfold omapSet
    by_cases h0 : k0 = k
    · rw [if_pos h0]; simp
    · rw [if_neg h0]; simp

theorem dedupFirst_eq_nil {l : List Str} (h : dedupFirst l = []) : l = [] := by
  cases l with
  | nil => rfl
  | cons a rest =>
    rw [dedupFirst, dedupFirstAux, if_neg (by simp)] at h
    exact absurd h (by simp)

/-- An empty before/after union forces an empty `before` map. -/
theorem before_nil_of_updateKeysOf_nil (st : EngineState)
    (h : updateKeysOf st = []) : st.updates.before = [] := by
  unfold updateKeysOf at h
  have h2 := dedupFirst_eq_nil h
  have h3 : omapKeys st.updates.before = [] :=
    (List.append_eq_nil.mp h2).1
  unfold omapKeys at h3
  exact List.map_eq_nil_iff.mp h3

theorem runWrapped_save_length (e' : Engine)
    (h : e'.state.updates.length = (updateKeysOf e'.state).length) :
    (runWrapped (str "save") saveBody e').1.state.updates.length
      = (updateKeysOf (runWrapped (str "save") saveBody e').1.state).length := by
  unfold runWrapped
  cases validateAction (str "save") e'.state with
  | some err => exact h
  | none => rfl

/-- After any `_changeUpdates` run from a state where an empty union implies
a zero length, the recomputed length equals the union size. -/
theorem changeUpdates_length (fn : Str → EngineState → EngineState)
    (e : Engine)
    (h0 : updateKeysOf e.state = [] → e.state.updates.length = 0) :
    (changeUpdates fn e).1.state.updates.length
      = (updateKeysOf (changeUpdates fn e).1.state).length := by
  unfold changeUpdates
  by_cases hE : (updateKeysOf e.state).isEmpty
  · simp only [hE, if_true]
    have hnil : updateKeysOf e.state = [] := by
      cases hL : updateKeysOf e.state with
      | nil => rfl
      | cons a rest => rw [hL] at hE; exact absurd hE (by simp)
    rw [h0 hnil, hnil]
    rfl
  · simp only [hE, Bool.false_eq_true, if_false]
    split
    · exact runWrapped_save_length _ rfl
    · rfl

theorem appendUpdate_lenInv (fn line : Str) (e : Engine) (h : lenInv e) :
    lenInv (appendUpdate fn line e).1 := by
  unfold appendUpdate
  rcases hus : updateState fn (UpdateLine :: line) e.state with err | st1
  · exact h
  · dsimp only
    have hne : st1.updates.before ≠ [] := by
      unfold updateState at hus
      by_cases hnl : '\n' ∈ UpdateLine :: line
      · rw [if_pos hnl] at hus
        exact absurd hus (by simp)
      · rw [if_neg hnl] at hus
        rcases hp : parseLine (UpdateLine :: line) 1 with perr | p
        · rw [hp] at hus
          exact absurd hus (by simp)
        · rw [hp] at hus
          dsimp only at hus
          by_cases hd : p.type = DeleteKeyLine
          · rw [if_pos hd] at hus
            rw [← Except.ok.inj hus]
            exact omapSet_ne_nil _ _ _
          · rw [if_neg hd] at hus
            rw [← Except.ok.inj hus]
            exact omapSet_ne_nil _ _ _
    have hlen : (optimizeUpdates { e with state := st1 }).1.state.updates.length
        = (updateKeysOf (optimizeUpdates
            { e with state := st1 }).1.state).length :=
      changeUpdates_length optimizeFn { e with state := st1 }
        (fun hu => absurd (before_nil_of_updateKeysOf_nil _ hu) hne)
    rcases hO : optimizeUpdates { e with state := st1 } with ⟨e1, oerr⟩
    rw [hO] at hlen
    cases oerr with
    | some err => exact fun _ => hlen
    | none => exact fun _ => hlen

theorem updateValueBody_lenInv (a b c : Option Str) (e : Engine)
    (h : lenInv e) : lenInv (updateValueBody a b c e).1 := by
  unfold updateValueBody
  cases validateKey b with
  | some err => exact h
  | none => exact appendUpdate_lenInv _ _ e h

theorem updateApprovedBody_lenInv (a b : Option Str) (ap : Bool) (e : Engine)
    (h : lenInv e) : lenInv (updateApprovedBody a b ap e).1 := by
  unfold updateApprovedBody
  cases validateKey b with
  | some err => exact h
  | none => exact appendUpdate_lenInv _ _ e h

theorem updateCommentBody_lenInv (a b c : Option Str) (e : Engine)
    (h : lenInv e) : lenInv (updateCommentBody a b c e).1 := by
  unfold updateCommentBody
  cases validateKey b with
  | some err => exact h
  | none => exact appendUpdate_lenInv _ _ e h

theorem updateTranslationBody_lenInv (a b c d : Option Str) (ap : Bool)
    (e : Engine) (h : lenInv e) :
    lenInv (updateTranslationBody a b c d ap e).1 := by
  unfold updateTranslationBody
  cases validateKey b with
  | some err => exact h
  | none =>
    dsimp only
    rcases hA : appendUpdate (a.getD undefinedStr)
        (CommentLine :: b.getD [] ++ KeyValueSeparator :: safeValue d) e
      with ⟨e1, oerr⟩
    have h1 : lenInv e1 := by
      have := appendUpdate_lenInv (a.getD undefinedStr)
        (CommentLine :: b.getD [] ++ KeyValueSeparator :: safeValue d) e h
      rw [hA] at this
      exact this
    cases oerr with
    | some err => exact h1
    | none => exact appendUpdate_lenInv _ _ e1 h1

theorem saveBody_lenInv (e : Engine) : lenInv (saveBody e).1 :=
  fun _ => rfl

theorem runWrapped_save_lenInv (e : Engine) (h : lenInv e) :
    lenInv (runWrapped (str "save") saveBody e).1 := by
  unfold runWrapped
  cases validateAction (str "save") e.state with
  | some err => exact h
  | none => exact saveBody_lenInv e

theorem addKeyLoop_lenInv :
    ∀ (fs : List (Str × List Str)) (e : Engine), lenInv e →
      lenInv (addKeyLoop fs e).1
  | [], e, h => h
  | _ :: fs, e, h => by
    unfold addKeyLoop runWrapped
    cases validateAction (str "updateValue") e.state with
    | some err => exact h
    | none => exact h

theorem deleteKeyLoop_lenInv (k : Str) :
    ∀ (fs : List (Str × List Str)) (e : Engine), lenInv e →
      lenInv (deleteKeyLoop k fs e).1
  | [], e, h => h
  | f :: fs, e, h => by
    unfold deleteKeyLoop
    rcases hA : appendUpdate f.1 (DeleteKeyLine :: k) e with ⟨e1, oerr⟩
    have h1 : lenInv e1 := by
      have := appendUpdate_lenInv f.1 (DeleteKeyLine :: k) e h
      rw [hA] at this
      exact this
    cases oerr with
    | some err => exact h1
    | none => exact deleteKeyLoop_lenInv k fs e1 h1

theorem copyKeyLoop_lenInv (fromKey toKey : Str) :
    ∀ (fs : List (Str × List Str)) (e : Engine), lenInv e →
      lenInv (copyKeyLoop fromKey toKey fs e).1
  | [], e, h => h
  | f :: fs, e, h => by
    unfold copyKeyLoop
    have hstep : ∀ (r : Engine × Option I18nErr),
        lenInv r.1 →
        lenInv ((match r with
          | (e1, some err) => (e1, some err)
          | (e1, none) => copyKeyLoop fromKey toKey fs e1) : Engine ×
            Option I18nErr).1 := by
      rintro ⟨e1, oerr⟩ h1
      cases oerr with
      | some err => exact h1
      | none => exact copyKeyLoop_lenInv fromKey toKey fs e1 h1
    cases omapFind e.state.updated (fkStr f.1 fromKey) with
    | none =>
      refine hstep _ ?_
      unfold runWrapped
      cases validateAction (str "updateTranslation") e.state with
      | some err => exact h
      | none => exact updateTranslationBody_lenInv _ _ _ _ _ e h
    | some t =>
      refine hstep _ ?_
      unfold runWrapped
      cases validateAction (str "updateTranslation") e.state with
      | some err => exact h
      | none => exact updateTranslationBody_lenInv _ _ _ _ _ e h

theorem addKeyBody_lenInv (key : Option Str) (e : Engine) (h : lenInv e) :
    lenInv (addKeyBody key e).1 := by
  unfold addKeyBody
  cases validateKey key with
  | some err => exact h
  | none =>
    dsimp only
    cases sortedIndexOf e.state.keys (key.getD []) with
    | none => exact h
    | some sortedIndex =>
      dsimp only
      split
      · exact h
      · exact addKeyLoop_lenInv e.files _ h

theorem deleteKeyBody_lenInv (key : Option Str) (e : Engine) (h : lenInv e) :
    lenInv (deleteKeyBody key e).1 := by
  unfold deleteKeyBody
  cases validateKey key with
  | some err => exact h
  | none =>
    dsimp only
    split
    · exact deleteKeyLoop_lenInv _ e.files _ h
    · exact h

theorem copyKeyBody_lenInv (fromKey toKey : Option Str) (e : Engine)
    (h : lenInv e) : lenInv (copyKeyBody fromKey toKey e).1 := by
  unfold copyKeyBody
  split
  · exact h
  · cases validateKey fromKey with
    | some err => exact h
    | none =>
      cases validateKey toKey with
      | some err => exact h
      | none =>
        dsimp only
        split
        · exact h
        · split
          · exact h
          · cases sortedIndexOf e.state.keys (toKey.getD []) with
            | none => exact h
            | some sortedIndex => exact copyKeyLoop_lenInv _ _ e.files _ h

theorem renameKeyBody_lenInv (fromKey toKey : Option Str) (e : Engine)
    (h : lenInv e) : lenInv (renameKeyBody fromKey toKey e).1 := by
  unfold renameKeyBody
  split
  · exact h
  · cases validateKey fromKey with
    | some err => exact h
    | none =>
      cases validateKey toKey with
      | some err => exact h
      | none =>
        dsimp only
        have hcopy : lenInv (runWrapped (str "copyKey")
            (copyKeyBody fromKey toKey) e).1 := by
          unfold runWrapped
          cases validateAction (str "copyKey") e.state with
          | some err => exact h
          | none => exact copyKeyBody_lenInv fromKey toKey e h
        rcases hC : runWrapped (str "copyKey") (copyKeyBody fromKey toKey) e
          with ⟨e1, oerr⟩
        rw [hC] at hcopy
        cases oerr with
        | some err => exact hcopy
        | none =>
          dsimp only
          unfold runWrapped
          cases validateAction (str "deleteKey") e1.state with
          | some err => exact hcopy
          | none => exact deleteKeyBody_lenInv none e1 hcopy

theorem addFileBody_lenInv (fileName : Option Str) (e : Engine)
    (h : lenInv e) : lenInv (addFileBody fileName e).1 := by
  unfold addFileBody
  dsimp only
  split
  · exact h
  · split
    · exact h
    · split
      · exact h
      · exact runWrapped_save_lenInv _ h

theorem deleteFileBody_lenInv (fileName : Option Str) (e : Engine)
    (h : lenInv e) : lenInv (deleteFileBody fileName e).1 := by
  unfold deleteFileBody
  dsimp only
  split
  · exact h
  · split
    · exact h
    · exact runWrapped_save_lenInv _ h

theorem revertBody_lenInv (fileName key : Option Str) (e : Engine)
    (h : lenInv e) (herr : e.state.error = none) :
    lenInv (revertBody fileName key e).1 :=
  fun _ => changeUpdates_length (revertFn fileName key) e
    (fun hu => by rw [h herr, hu]; rfl)

theorem loadLineStep_updates (f : Str) (n : Nat) (l : Str) (c : FileCtx) :
    ((loadLineStep f n l c).1).st.updates = c.st.updates := by
  unfold loadLineStep
  split
  · rfl
  · cases parseLine l 0 with
    | error err => rfl
    | ok p =>
      dsimp only
      split
      · split
        · rfl
        · rfl
      · split
        · rfl
        · rfl

theorem loadLinesGo_updates (f : Str) :
    ∀ (ls : List Str) (n : Nat) (c : FileCtx),
      ((loadLinesGo f ls n c).1).st.updates = c.st.updates
  | [], _, c => rfl
  | l :: rest, n, c => by
    unfold loadLinesGo
    rcases hS : loadLineStep f (n + 1) l c with ⟨c1, oerr⟩
    have h1 : c1.st.updates = c.st.updates := by
      have := loadLineStep_updates f (n + 1) l c
      rw [hS] at this
      exact this
    cases oerr with
    | some err => exact h1
    | none => exact (loadLinesGo_updates f rest (n + 1) c1).trans h1

theorem updateState_before_ne (f l : Str) (st st' : EngineState)
    (h : updateState f l st = .ok st') : st'.updates.before ≠ [] := by
  unfold updateState at h
  by_cases hnl : '\n' ∈ l
  · rw [if_pos hnl] at h
    exact absurd h (by simp)
  · rw [if_neg hnl] at h
    rcases hp : parseLine l 1 with perr | p
    · rw [hp] at h
      exact absurd h (by simp)
    · rw [hp] at h
      dsimp only at h
      by_cases hd : p.type = DeleteKeyLine
      · rw [if_pos hd] at h
        rw [← Except.ok.inj h]
        exact omapSet_ne_nil _ _ _
      · rw [if_neg hd] at h
        rw [← Except.ok.inj h]
        exact omapSet_ne_nil _ _ _

/-- The zero-length property holds along the replay of update lines because
the first replayed line permanently populates `updates.before`. -/
theorem replayGo_zeroLen (f : Str) :
    ∀ (ls : List Str) (st : EngineState),
      (st.updates.before = [] → st.updates.length = 0) →
      ((replayGo f ls st).1.updates.before = [] →
        (replayGo f ls st).1.updates.length = 0)
  | [], st, h => h
  | l :: rest, st, h => by
    unfold replayGo
    rcases hus : updateState f l st with err | st1
    · exact h
    · exact replayGo_zeroLen f rest st1
        (fun hb => absurd hb (updateState_before_ne f l st st1 hus))

theorem loadFile_zeroLen (f : Str) (ls : List Str) (st : EngineState)
    (g : List Str) (h : st.updates.before = [] → st.updates.length = 0) :
    ((loadFile f ls st g).1.1.updates.before = [] →
      (loadFile f ls st g).1.1.updates.length = 0) := by
  unfold loadFile
  rcases hL : loadLinesGo f (takeLines ls) 0 ⟨st, g, [], [], []⟩
    with ⟨c, oerr⟩
  have hc : c.st.updates = st.updates := by
    have := loadLinesGo_updates f (takeLines ls) 0 ⟨st, g, [], [], []⟩
    rw [hL] at this
    exact this
  cases oerr with
  | some err =>
    dsimp only
    rw [hc]
    exact h
  | none =>
    dsimp only
    rcases hR : replayGo f c.queue c.st with ⟨st1, oerr2⟩
    have := replayGo_zeroLen f c.queue c.st (by rw [hc]; exact h)
    rw [hR] at this
    cases oerr2 with
    | some err => exact this
    | none => exact this

theorem loadFilesGo_zeroLen :
    ∀ (fs : List (Str × List Str)) (st : EngineState) (g : List Str),
      (st.updates.before = [] → st.updates.length = 0) →
      ((loadFilesGo fs st g).1.1.updates.before = [] →
        (loadFilesGo fs st g).1.1.updates.length = 0)
  | [], st, g, h => h
  | f :: fs, st, g, h => by
    unfold loadFilesGo
    rcases hF : loadFile f.1 f.2 st g with ⟨⟨st1, g1⟩, oerr⟩
    have h1 := loadFile_zeroLen f.1 f.2 st g h
    rw [hF] at h1
    cases oerr with
    | some err => exact h1
    | none => exact loadFilesGo_zeroLen fs st1 g1 h1

theorem parseLine_error_stateError (l : Str) (i : Nat) (err : I18nErr)
    (h : parseLine l i = .error err) : err.stateError = true := by
  unfold parseLine at h
  rcases hg : l.get? i with _ | ty <;> rw [hg] at h
  · rw [← Except.error.inj h]
    rfl
  · dsimp only at h
    split at h
    · rcases hj : jsIndexOf l KeyValueSeparator with _ | si <;> rw [hj] at h
      · rw [← Except.error.inj h]
        rfl
      · dsimp only at h
        split at h
        · rw [← Except.error.inj h]
          rfl
        · exact absurd h (by simp)
    · rw [← Except.error.inj h]
      rfl

theorem annotate_stateError (f : Str) (n : Nat) (e : I18nErr) :
    (annotate f n e).stateError = e.stateError := by
  unfold annotate
  split
  · rfl
  · rfl

theorem loadLineStep_stateError (f : Str) (n : Nat) (l : Str) (c : FileCtx)
    (err : I18nErr) (h : (loadLineStep f n l c).2 = some err) :
    err.stateError = true := by
  unfold loadLineStep at h
  split at h
  · exact absurd h (by simp)
  · cases hp : parseLine l 0 with
    | error perr =>
      rw [hp] at h
      dsimp only at h
      rw [← Option.some.inj h, annotate_stateError]
      exact parseLine_error_stateError l 0 perr hp
    | ok p =>
      rw [hp] at h
      dsimp only at h
      split at h <;> split at h <;>
        first
        | (rw [← Option.some.inj h, annotate_stateError]; rfl)
        | exact absurd h (by simp)

theorem updateState_error_stateError (f l : Str) (st : EngineState)
    (err : I18nErr) (h : updateState f l st = .error err) :
    err.stateError = true := by
  unfold updateState at h
  by_cases hnl : '\n' ∈ l
  · rw [if_pos hnl] at h
    rw [← Except.error.inj h]
    rfl
  · rw [if_neg hnl] at h
    rcases hp : parseLine l 1 with perr | p
    · rw [hp] at h
      dsimp only at h
      rw [← Except.error.inj h]
      exact parseLine_error_stateError l 1 perr hp
    · rw [hp] at h
      dsimp only at h
      split at h
      · exact absurd h (by simp)
      · exact absurd h (by simp)

theorem loadLinesGo_stateError (f : Str) :
    ∀ (ls : List Str) (n : Nat) (c : FileCtx) (err : I18nErr),
      (loadLinesGo f ls n c).2 = some err → err.stateError = true
  | [], _, c, err, h => absurd h (by simp [loadLinesGo])
  | l :: rest, n, c, err, h => by
    unfold loadLinesGo at h
    rcases hS : loadLineStep f (n + 1) l c with ⟨c1, oerr⟩
    rw [hS] at h
    cases oerr with
    | some err2 =>
      dsimp only at h
      rw [← Option.some.inj h]
      exact loadLineStep_stateError f (n + 1) l c err2 (by rw [hS])
    | none =>
      dsimp only at h
      exact loadLinesGo_stateError f rest (n + 1) c1 err h

theorem replayGo_stateError (f : Str) :
    ∀ (ls : List Str) (st : EngineState) (err : I18nErr),
      (replayGo f ls st).2 = some err → err.stateError = true
  | [], st, err, h => absurd h (by simp [replayGo])
  | l :: rest, st, err, h => by
    unfold replayGo at h
    rcases hus : updateState f l st with uerr | st1
    · rw [hus] at h
      dsimp only at h
      rw [← Option.some.inj h]
      exact updateState_error_stateError f l st uerr hus
    · rw [hus] at h
      dsimp only at h
      exact replayGo_stateError f rest st1 err h

theorem loadFile_stateError (f : Str) (ls : List Str) (st : EngineState)
    (g : List Str) (err : I18nErr)
    (h : (loadFile f ls st g).2 = some err) : err.stateError = true := by
  unfold loadFile at h
  rcases hL : loadLinesGo f (takeLines ls) 0 ⟨st, g, [], [], []⟩
    with ⟨c, oerr⟩
  rw [hL] at h
  cases oerr with
  | some err2 =>
    dsimp only at h
    rw [← Option.some.inj h]
    exact loadLinesGo_stateError f (takeLines ls) 0 _ err2 (by rw [hL])
  | none =>
    dsimp only at h
    rcases hR : replayGo f c.queue c.st with ⟨st1, oerr2⟩
    rw [hR] at h
    cases oerr2 with
    | some err2 =>
      dsimp only at h
      rw [← Option.some.inj h]
      exact replayGo_stateError f c.queue c.st err2 (by rw [hR])
    | none => exact absurd h (by simp)

theorem loadFilesGo_stateError :
    ∀ (fs : List (Str × List Str)) (st : EngineState) (g : List Str)
      (err : I18nErr),
      (loadFilesGo fs st g).2 = some err → err.stateError = true
  | [], st, g, err, h => absurd h (by simp [loadFilesGo])
  | f :: fs, st, g, err, h => by
    unfold loadFilesGo at h
    rcases hF : loadFile f.1 f.2 st g with ⟨⟨st1, g1⟩, oerr⟩
    rw [hF] at h
    cases oerr with
    | some err2 =>
      dsimp only at h
      rw [← Option.some.inj h]
      exact loadFile_stateError f.1 f.2 st g err2 (by rw [hF])
    | none =>
      dsimp only at h
      exact loadFilesGo_stateError fs st1 g1 err h

theorem loadOp_lenInv (e : Engine) : lenInv (loadOp e).1 := by
  unfold loadOp
  rcases hL : loadFilesGo e.files initState [] with ⟨⟨st, gkeys⟩, oerr⟩
  cases oerr with
  | some err =>
    dsimp only
    have hse : err.stateError = true :=
      loadFilesGo_stateError e.files initState [] err (by rw [hL])
    rw [if_pos hse]
    exact fun he => absurd he (by simp)
  | none =>
    dsimp only
    have hQ : st.updates.before = [] → st.updates.length = 0 := by
      have := loadFilesGo_zeroLen e.files initState [] (fun _ => rfl)
      rw [hL] at this
      exact this
    have hlen : (optimizeUpdates
          { state := st, files := e.files }).1.state.updates.length
        = (updateKeysOf (optimizeUpdates
          { state := st, files := e.files }).1.state).length :=
      changeUpdates_length optimizeFn { state := st, files := e.files }
        (fun hu => hQ (before_nil_of_updateKeysOf_nil _ hu))
    rcases hO : optimizeUpdates { state := st, files := e.files }
      with ⟨e1, oerr2⟩
    rw [hO] at hlen
    cases oerr2 with
    | none => exact fun _ => hlen
    | some err => exact fun _ => hlen

theorem validateAction_error_none (fnName : Str) (st : EngineState)
    (hno : ¬ (fnName = str "load" ∨ fnName = str "connect" ∨
      fnName = str "export"))
    (h : validateAction fnName st = none) : st.error = none := by
  unfold validateAction at h
  rw [if_neg hno] at h
  by_cases hl : st.loaded = true
  · rw [if_neg (not_not_intro hl)] at h
    cases herr : st.error with
    | none => rfl
    | some err =>
      rw [herr] at h
      exact absurd h (by simp)
  · rw [if_pos hl] at h
    exact absurd h (by simp)

/-- C4 (amended): every public state-mutating operation, run from a state
satisfying the length/union invariant, re-establishes it: whenever the
resulting state carries no captured error, `updates.length` equals the number
of distinct full keys in the union of the key sets of `updates.before` and
`updates.after`. -/
theorem updatesLength_union_invariant (op : Op) (e : Engine)
    (h : lenInv e) : lenInv (runOp op e).1 := by
  unfold runOp runWrapped
  cases hva : validateAction (fnNameOf op) e.state with
  | some err => exact h
  | none =>
    cases op with
    | load => exact loadOp_lenInv e
    | save => exact saveBody_lenInv e
    | addFile fileName => exact addFileBody_lenInv fileName e h
    | deleteFile fileName => exact deleteFileBody_lenInv fileName e h
    | addKey key => exact addKeyBody_lenInv key e h
    | copyKey fromKey toKey => exact copyKeyBody_lenInv fromKey toKey e h
    | renameKey fromKey toKey => exact renameKeyBody_lenInv fromKey toKey e h
    | deleteKey key => exact deleteKeyBody_lenInv key e h
    | updateValue a b c => exact updateValueBody_lenInv a b c e h
    | updateApproved a b ap => exact updateApprovedBody_lenInv a b ap e h
    | updateComment a b c => exact updateCommentBody_lenInv a b c e h
    | updateTranslation a b c d ap =>
        exact updateTranslationBody_lenInv a b c d ap e h
    | revert fileName key =>
        exact revertBody_lenInv fileName key e h
          (validateAction_error_none _ _
            (show ¬ (str "revert" = str "load" ∨ str "revert" = str "connect"
              ∨ str "revert" = str "export") by decide) hva)

/-- C4 witness: after a concrete edit, the recomputed log length equals the
union size. -/
theorem updatesLength_union_invariant_witness :
    w4Run.state.updates.length = (updateKeysOf w4Run.state).length :=
  updatesLength_union_invariant
    (Op.updateValue (some (str "a.i18n")) (some (str "x")) (some (str "2")))
    (loadedEngine [(str "a.i18n", [str "-x=1"])])
    (fun _ => by decide) (by decide)

theorem marker_ne_update (b : Bool) :
    (if b then ApprovedLine else NotApprovedLine) ≠ UpdateLine := by
  cases b <;> decide

theorem marker_ne_comment (b : Bool) :
    (if b then ApprovedLine else NotApprovedLine) ≠ CommentLine := by
  cases b <;> decide

theorem marker_ne_sep (b : Bool) :
    (if b then ApprovedLine else NotApprovedLine) ≠ KeyValueSeparator := by
  cases b <;> decide

theorem marker_ne_delete (b : Bool) :
    (if b then ApprovedLine else NotApprovedLine) ≠ DeleteKeyLine := by
  cases b <;> decide

theorem marker_decide (b : Bool) :
    (if decide ((if b then ApprovedLine else NotApprovedLine) = ApprovedLine)
      then ApprovedLine else NotApprovedLine)
    = (if b then ApprovedLine else NotApprovedLine) := by
  cases b <;> rfl

theorem marker_valid (b : Bool) :
    (if b then ApprovedLine else NotApprovedLine) = CommentLine ∨
      (if b then ApprovedLine else NotApprovedLine) = ApprovedLine ∨
      (if b then ApprovedLine else NotApprovedLine) = NotApprovedLine ∨
      (if b then ApprovedLine else NotApprovedLine) = DeleteKeyLine := by
  cases b <;> decide

theorem omapSet_omapSet {α : Type} (m : List (Str × α)) (k : Str) (v w : α) :
    omapSet (omapSet m k v) k w = omapSet m k w := by
  induction m with
  | nil => simp [omapSet]
  | cons p rest ih =>
    obtain ⟨k0, x⟩ := p
    by_cases h0 : k0 = k
    · rw [omapSet, if_pos h0, omapSet, if_pos h0, omapSet, if_pos h0]
    · rw [omapSet, if_neg h0, omapSet, if_neg h0, omapSet, if_neg h0, ih]

theorem addNew_addNew (g : List Str) (k : Str) :
    addNew (addNew g k) k = addNew g k := by
  unfold addNew
  by_cases h : k ∈ g
  · rw [if_pos h, if_pos h]
  · rw [if_neg h, if_pos (by simp)]

/-- A comment line of canonical shape, on a fresh full key, folds the comment
into `original`/`updated` and extends the comment-key set. -/
theorem commentLineStep (n k cmv : Str) (num : Nat) (c : FileCtx)
    (hk : KeyValueSeparator ∉ k)
    (hfind : omapFind c.st.original (fkStr n k) = none)
    (hcK : k ∉ c.cKeys) :
    loadLineStep n num (CommentLine :: (k ++ KeyValueSeparator :: cmv)) c
      = (⟨{ c.st with
            original := omapSet c.st.original (fkStr n k)
              { key := k, comment := some cmv },
            updated := omapSet c.st.updated (fkStr n k)
              { key := k, comment := some cmv } },
          addNew c.gkeys k, c.vKeys, c.cKeys ++ [k], c.queue⟩, none) := by
  unfold loadLineStep
  rw [if_neg (show ¬ (CommentLine :: (k ++ KeyValueSeparator :: cmv)).head?
      = some UpdateLine from fun h =>
    absurd (Option.some.inj h) (by decide))]
  rw [parseLine_base CommentLine k cmv (Or.inl rfl) hk (by decide)]
  dsimp only
  unfold resolveTranslation
  rw [hfind]
  dsimp only
  rw [if_neg (show ¬ (if CommentLine = CommentLine
      then k ∈ c.cKeys else k ∈ c.vKeys) from by
    rw [if_pos rfl]
    exact hcK)]
  rfl

/-- A value line of canonical shape folds the value and approval into the
entry for its key and extends the value-key set. -/
theorem valueLineStep (n k vlv : Str) (b : Bool) (num : Nat) (c : FileCtx)
    (hk : KeyValueSeparator ∉ k)
    (hvK : k ∉ c.vKeys) :
    loadLineStep n num ((if b then ApprovedLine else NotApprovedLine) ::
        (k ++ KeyValueSeparator :: vlv)) c
      = (⟨{ c.st with
            original := omapSet c.st.original (fkStr n k)
              { (omapFind c.st.original (fkStr n k)).getD { key := k } with
                value := some vlv,
                approved := some ((if b then ApprovedLine
                  else NotApprovedLine) = ApprovedLine) },
            updated := omapSet c.st.updated (fkStr n k)
              { (omapFind c.st.original (fkStr n k)).getD { key := k } with
                value := some vlv,
                approved := some ((if b then ApprovedLine
                  else NotApprovedLine) = ApprovedLine) } },
          addNew c.gkeys k, c.vKeys ++ [k], c.cKeys, c.queue⟩, none) := by
  unfold loadLineStep
  rw [if_neg (show
      ¬ ((if b then ApprovedLine else NotApprovedLine) ::
        (k ++ KeyValueSeparator :: vlv)).head? = some UpdateLine from fun h =>
    absurd (Option.some.inj h) (marker_ne_update b))]
  rw [parseLine_base (if b then ApprovedLine else NotApprovedLine) k vlv
    (marker_valid b) hk (marker_ne_sep b)]
  dsimp only
  unfold resolveTranslation
  dsimp only
  simp only [if_neg (marker_ne_comment b)]
  rw [if_neg hvK]

theorem fkStr_inj_file (n k k' : Str) (h : fkStr n k = fkStr n k') : k = k' := by
  unfold fkStr at h
  have h1 := List.append_cancel_left h
  exact List.cons.inj h1 |>.2

theorem fkStr_ne_file (n n' k k' : Str) (hn : FullKeySeparator ∉ n)
    (hn' : FullKeySeparator ∉ n') (hne : n ≠ n') : fkStr n k ≠ fkStr n' k' := by
  intro h
  have h1 : jsIndexOf (fkStr n k) FullKeySeparator = some n.length :=
    jsIndexOf_append n k FullKeySeparator hn
  have h2 : jsIndexOf (fkStr n' k') FullKeySeparator = some n'.length :=
    jsIndexOf_append n' k' FullKeySeparator hn'
  rw [h, h2] at h1
  have hlen : n'.length = n.length := Option.some.inj h1
  exact hne (List.append_inj h hlen.symm).1

/-- Keys of other full keys are untouched by one file's canonical fold. -/
theorem canonSetAll_find_ne (hc hv : Str → Bool) (cm vl : Str → Str → Str)
    (ap : Str → Str → Bool) (n : Str) (ks : List Str) (fk : Str) :
    ∀ (m : TMap), (∀ k ∈ ks, fk ≠ fkStr n k) →
      omapFind (canonSetAll hc hv cm vl ap n ks m) fk = omapFind m fk := by
  induction ks with
  | nil => intro m _; rfl
  | cons k ks' ih =>
    intro m h
    show omapFind (canonSetAll hc hv cm vl ap n ks'
      (if hc k || hv k then
        omapSet m (fkStr n k) (entryFor hc cm vl ap n k) else m)) fk = _
    rw [ih _ (fun k' hk' => h k' (List.mem_cons_of_mem k hk'))]
    by_cases hck : (hc k || hv k) = true
    · rw [if_pos hck, omapFind_set_ne _ _ _ _ (h k (List.mem_cons_self k ks'))]
    · rw [if_neg hck]

/-- A content key of a canonical file is found in the file's fold with its
reconstructed entry. -/
theorem canonSetAll_find_mem (hc hv : Str → Bool) (cm vl : Str → Str → Str)
    (ap : Str → Str → Bool) (n k : Str) (ks : List Str) :
    ∀ (m : TMap), ks.Nodup → k ∈ ks → (hc k || hv k) = true →
      omapFind (canonSetAll hc hv cm vl ap n ks m) (fkStr n k)
        = some (entryFor hc cm vl ap n k) := by
  induction ks with
  | nil => intro m _ hmem _; exact absurd hmem (List.not_mem_nil k)
  | cons k0 ks' ih =>
    intro m hnd hmem hck
    rcases List.mem_cons.mp hmem with heq | htail
    · subst heq
      show omapFind (canonSetAll hc hv cm vl ap n ks'
        (if hc k || hv k then
          omapSet m (fkStr n k) (entryFor hc cm vl ap n k) else m)) _ = _
      rw [canonSetAll_find_ne hc hv cm vl ap n ks' _ _
        (fun k' hk' he => (List.nodup_cons.mp hnd).1
          (fkStr_inj_file n k k' he ▸ hk'))]
      rw [if_pos hck, omapFind_set_self]
    · exact ih _ (List.nodup_cons.mp hnd).2 htail hck

/-- Full keys of files outside a canonical fold are untouched by it. -/
theorem canonMap_find_ne (hc hv : Str → Bool) (cm vl : Str → Str → Str)
    (ap : Str → Str → Bool) (names ks : List Str) (fk : Str) :
    ∀ (m : TMap), (∀ n ∈ names, ∀ k ∈ ks, fk ≠ fkStr n k) →
      omapFind (canonMap hc hv cm vl ap names ks m) fk = omapFind m fk := by
  induction names with
  | nil => intro m _; rfl
  | cons n names' ih =>
    intro m h
    show omapFind (canonMap hc hv cm vl ap names' ks
      (canonSetAll hc hv cm vl ap n ks m)) fk = _
    rw [ih _ (fun n' hn' => h n' (List.mem_cons_of_mem n hn'))]
    exact canonSetAll_find_ne hc hv cm vl ap n ks fk m
      (h n (List.mem_cons_self n names'))

/-- A content key of a file in a canonical file set is found in the full fold
with its reconstructed entry. -/
theorem canonMap_find_mem (hc hv : Str → Bool) (cm vl : Str → Str → Str)
    (ap : Str → Str → Bool) (n k : Str) (names ks : List Str) :
    ∀ (m : TMap), names.Nodup → (∀ n' ∈ names, FullKeySeparator ∉ n') →
      ks.Nodup → n ∈ names → k ∈ ks → (hc k || hv k) = true →
      omapFind (canonMap hc hv cm vl ap names ks m) (fkStr n k)
        = some (entryFor hc cm vl ap n k) := by
  induction names with
  | nil => intro m _ _ _ hmem _ _; exact absurd hmem (List.not_mem_nil n)
  | cons n0 names' ih =>
    intro m hnd hsep hknd hmem hkmem hck
    rcases List.mem_cons.mp hmem with heq | htail
    · subst heq
      show omapFind (canonMap hc hv cm vl ap names' ks
        (canonSetAll hc hv cm vl ap n ks m)) _ = _
      rw [canonMap_find_ne hc hv cm vl ap names' ks _ _
        (fun n' hn' k' _ he =>
          fkStr_ne_file n n' k k' (hsep n (List.mem_cons_self n names'))
            (hsep n' (List.mem_cons_of_mem n hn'))
            (fun hnn => (List.nodup_cons.mp hnd).1 (hnn ▸ hn')) he)]
      exact canonSetAll_find_mem hc hv cm vl ap n k ks m hknd hkmem hck
    · exact ih _ (List.nodup_cons.mp hnd).2
        (fun n' hn' => hsep n' (List.mem_cons_of_mem n0 hn'))
        hknd htail hkmem hck

/-- Processing one canonical key block folds exactly the reconstructed entry
into both maps and registers the key in the per-file duplicate sets. -/
theorem canonBlock_go (hc hv : Str → Bool) (cm vl : Str → Str → Str)
    (ap : Str → Str → Bool) (n k : Str) (rest : List Str) (num : Nat)
    (c : FileCtx)
    (hk : KeyValueSeparator ∉ k)
    (hfind : omapFind c.st.original (fkStr n k) = none)
    (hvK : k ∉ c.vKeys) (hcK : k ∉ c.cKeys)
    (hcontent : (hc k || hv k) = true) :
    loadLinesGo n (canonBlock hc hv cm vl ap n k ++ rest) num c
      = loadLinesGo n rest (if hc k then num + 1 + 1 else num + 1)
          ⟨{ c.st with
             original := omapSet c.st.original (fkStr n k)
               (entryFor hc cm vl ap n k),
             updated := omapSet c.st.updated (fkStr n k)
               (entryFor hc cm vl ap n k) },
           addNew c.gkeys k, c.vKeys ++ [k],
           (if hc k then c.cKeys ++ [k] else c.cKeys), c.queue⟩ := by
  cases hhck : hc k with
  | true =>
    have hblock : canonBlock hc hv cm vl ap n k
        = [CommentLine :: (k ++ KeyValueSeparator :: cm n k),
           (if ap n k then ApprovedLine else NotApprovedLine) ::
             (k ++ KeyValueSeparator :: vl n k)] := by
      simp [canonBlock, hhck]
    rw [hblock]
    show loadLinesGo n (_ :: _ :: rest) num c = _
    rw [loadLinesGo]
    rw [commentLineStep n k (cm n k) (num + 1) c hk hfind hcK]
    dsimp only
    rw [loadLinesGo]
    rw [valueLineStep n k (vl n k) (ap n k) (num + 1 + 1)]
    · dsimp only
      rw [omapFind_set_self, omapSet_omapSet, omapSet_omapSet, addNew_addNew]
      simp [entryFor, hhck]
    · exact hk
    · exact hvK
  | false =>
    have hblock : canonBlock hc hv cm vl ap n k
        = [(if ap n k then ApprovedLine else NotApprovedLine) ::
             (k ++ KeyValueSeparator :: vl n k)] := by
      have hhvk : hv k = true := by simpa [hhck] using hcontent
      simp [canonBlock, hhck, hhvk]
    rw [hblock]
    show loadLinesGo n (_ :: rest) num c = _
    rw [loadLinesGo]
    rw [valueLineStep n k (vl n k) (ap n k) (num + 1) c hk hvK]
    dsimp only
    rw [hfind]
    simp only [entryFor, hhck]
    rfl

/-- Processing a whole canonical file folds every content entry into both
maps and accumulates exactly the content keys, with an empty update queue. -/
theorem canonFile_go (hc hv : Str → Bool) (cm vl : Str → Str → Str)
    (ap : Str → Str → Bool) (n : Str) (ks : List Str) :
    ∀ (num : Nat) (c : FileCtx), ks.Nodup →
      (∀ k ∈ ks, KeyValueSeparator ∉ k) →
      (∀ k ∈ ks, omapFind c.st.original (fkStr n k) = none) →
      (∀ k ∈ ks, k ∉ c.vKeys) → (∀ k ∈ ks, k ∉ c.cKeys) →
      loadLinesGo n (ks.flatMap (canonBlock hc hv cm vl ap n)) num c
        = (⟨{ c.st with
              original := canonSetAll hc hv cm vl ap n ks c.st.original,
              updated := canonSetAll hc hv cm vl ap n ks c.st.updated },
            addNewAll c.gkeys (ks.filter fun k => hc k || hv k),
            c.vKeys ++ (ks.filter fun k => hc k || hv k),
            c.cKeys ++ (ks.filter hc), c.queue⟩, none) := by
  induction ks with
  | nil =>
    intro num c _ _ _ _ _
    simp [loadLinesGo, canonSetAll, addNewAll]
  | cons k ks' ih =>
    intro num c hnd hsep hfind hvK hcK
    rw [List.flatMap_cons]
    by_cases hck : (hc k || hv k) = true
    · rw [canonBlock_go hc hv cm vl ap n k _ num c
        (hsep k (List.mem_cons_self k ks'))
        (hfind k (List.mem_cons_self k ks'))
        (hvK k (List.mem_cons_self k ks'))
        (hcK k (List.mem_cons_self k ks')) hck]
      rw [ih _ _ (List.nodup_cons.mp hnd).2
        (fun k' hk' => hsep k' (List.mem_cons_of_mem k hk'))
        (fun k' hk' => by
          show omapFind (omapSet c.st.original (fkStr n k)
            (entryFor hc cm vl ap n k)) (fkStr n k') = none
          rw [omapFind_set_ne _ _ _ _
            (fun he => (List.nodup_cons.mp hnd).1
              (fkStr_inj_file n k' k he ▸ hk'))]
          exact hfind k' (List.mem_cons_of_mem k hk'))
        (fun k' hk' => by
          show k' ∉ c.vKeys ++ [k]
          simp only [List.mem_append, List.mem_singleton]
          rintro (h1 | h2)
          · exact hvK k' (List.mem_cons_of_mem k hk') h1
          · exact (List.nodup_cons.mp hnd).1 (h2 ▸ hk'))
        (fun k' hk' => by
          show k' ∉ (if hc k then c.cKeys ++ [k] else c.cKeys)
          by_cases hhck : hc k = true
          · rw [if_pos hhck]
            simp only [List.mem_append, List.mem_singleton]
            rintro (h1 | h2)
            · exact hcK k' (List.mem_cons_of_mem k hk') h1
            · exact (List.nodup_cons.mp hnd).1 (h2 ▸ hk')
          · rw [if_neg hhck]
            exact hcK k' (List.mem_cons_of_mem k hk'))]
      simp only [canonSetAll, List.foldl_cons, addNewAll, List.filter_cons,
        hck, if_true]
      by_cases hhck : hc k = true
      · simp [hhck, List.append_assoc]
      · have hhckf : hc k = false := Bool.eq_false_iff.mpr hhck
        simp [hhckf, List.append_assoc]
    · have hck0 : (hc k || hv k) = false := Bool.eq_false_iff.mpr hck
      have hhck : hc k = false := by
        cases hhc0 : hc k
        · rfl
        · rw [hhc0] at hck0; simp at hck0
      have hhvk : hv k = false := by
        cases hhv0 : hv k
        · rfl
        · rw [hhv0] at hck0; simp at hck0
      have hblock : canonBlock hc hv cm vl ap n k = [] := by
        unfold canonBlock
        rw [hck0, hhck]
        rfl
      rw [hblock, List.nil_append]
      rw [ih _ _ (List.nodup_cons.mp hnd).2
        (fun k' hk' => hsep k' (List.mem_cons_of_mem k hk'))
        (fun k' hk' => hfind k' (List.mem_cons_of_mem k hk'))
        (fun k' hk' => hvK k' (List.mem_cons_of_mem k hk'))
        (fun k' hk' => hcK k' (List.mem_cons_of_mem k hk'))]
      have hfe : (List.filter (fun k => hc k || hv k) (k :: ks'))
          = List.filter (fun k => hc k || hv k) ks' := by
        rw [List.filter_cons, hck0]
        rfl
      have hfhc : List.filter hc (k :: ks') = List.filter hc ks' := by
        rw [List.filter_cons, hhck]
        rfl
      have h1 : ∀ m : TMap, canonSetAll hc hv cm vl ap n (k :: ks') m
          = canonSetAll hc hv cm vl ap n ks' m := by
        intro m
        show List.foldl _ (if hc k || hv k then
          omapSet m (fkStr n k) (entryFor hc cm vl ap n k) else m) ks' = _
        rw [hck0]
        rfl
      rw [h1, h1, hfe, hfhc]

theorem takeLines_all (ls : List Str) (h : ∀ l ∈ ls, l ≠ []) :
    takeLines ls = ls := by
  unfold takeLines
  refine List.takeWhile_eq_self_iff.mpr (fun l hl => ?_)
  cases hle : l with
  | nil => exact absurd hle (h l hl)
  | cons a as => rfl

theorem canonBlock_lines_ne_nil (hc hv : Str → Bool) (cm vl : Str → Str → Str)
    (ap : Str → Str → Bool) (n k : Str) :
    ∀ l ∈ canonBlock hc hv cm vl ap n k, l ≠ [] := by
  intro l hl
  unfold canonBlock at hl
  rcases List.mem_append.mp hl with h | h
  · by_cases hhck : hc k = true
    · rw [if_pos hhck] at h
      rw [List.mem_singleton.mp h]
      exact List.cons_ne_nil _ _
    · rw [if_neg hhck] at h
      exact absurd h (List.not_mem_nil l)
  · by_cases hck : (hc k || hv k) = true
    · rw [if_pos hck] at h
      rw [List.mem_singleton.mp h]
      exact List.cons_ne_nil _ _
    · rw [if_neg hck] at h
      exact absurd h (List.not_mem_nil l)

/-- Loading one whole canonical file: every content entry lands in both maps,
the accumulated key set grows by the file's content keys, no error. -/
theorem canonFile_load (hc hv : Str → Bool) (cm vl : Str → Str → Str)
    (ap : Str → Str → Bool) (n : Str) (ks : List Str) (st : EngineState)
    (gkeys : List Str) (hknd : ks.Nodup)
    (hksep : ∀ k ∈ ks, KeyValueSeparator ∉ k)
    (hfind : ∀ k ∈ ks, omapFind st.original (fkStr n k) = none) :
    loadFile n (ks.flatMap (canonBlock hc hv cm vl ap n)) st gkeys
      = (({ st with
            original := canonSetAll hc hv cm vl ap n ks st.original,
            updated := canonSetAll hc hv cm vl ap n ks st.updated },
          addNewAll gkeys (ks.filter fun k => hc k || hv k)), none) := by
  unfold loadFile
  rw [takeLines_all _ (fun l hl => by
    rcases List.mem_flatMap.mp hl with ⟨k, hk, hlk⟩
    exact canonBlock_lines_ne_nil hc hv cm vl ap n k l hlk)]
  rw [canonFile_go hc hv cm vl ap n ks 0 ⟨st, gkeys, [], [], []⟩ hknd hksep
    hfind (fun k _ => List.not_mem_nil k) (fun k _ => List.not_mem_nil k)]
  rfl

theorem addNewAll_subset (l : List Str) :
    ∀ (g : List Str), (∀ k ∈ l, k ∈ g) → addNewAll g l = g := by
  induction l with
  | nil => intro g _; rfl
  | cons k l' ih =>
    intro g h
    show addNewAll (addNew g k) l' = g
    rw [show addNew g k = g from by
      unfold addNew; rw [if_pos (h k (List.mem_cons_self k l'))]]
    exact ih g (fun k' hk' => h k' (List.mem_cons_of_mem k hk'))

theorem addNewAll_fresh (l : List Str) :
    ∀ (g : List Str), l.Nodup → (∀ k ∈ l, k ∉ g) → addNewAll g l = g ++ l := by
  induction l with
  | nil => intro g _ _; exact (List.append_nil g).symm
  | cons k l' ih =>
    intro g hnd h
    show addNewAll (addNew g k) l' = g ++ k :: l'
    rw [show addNew g k = g ++ [k] from by
      unfold addNew; rw [if_neg (h k (List.mem_cons_self k l'))]]
    rw [ih (g ++ [k]) (List.nodup_cons.mp hnd).2 (fun k' hk' => by
      simp only [List.mem_append, List.mem_singleton]
      rintro (h1 | h2)
      · exact h k' (List.mem_cons_of_mem k hk') h1
      · exact (List.nodup_cons.mp hnd).1 (h2 ▸ hk'))]
    simp [List.append_assoc]

theorem addNewAll_nil_left (l : List Str) (hnd : l.Nodup) :
    addNewAll [] l = l := by
  rw [addNewAll_fresh l [] hnd (fun k _ => List.not_mem_nil k)]
  rfl

/-- Loading a whole canonical file set folds all files' entries into both
maps, in file-major order, without error. -/
theorem canonFiles_go (hc hv : Str → Bool) (cm vl : Str → Str → Str)
    (ap : Str → Str → Bool) (ks : List Str) (hknd : ks.Nodup)
    (hksep : ∀ k ∈ ks, KeyValueSeparator ∉ k) :
    ∀ (names : List Str) (st : EngineState) (g : List Str), names.Nodup →
      (∀ n ∈ names, FullKeySeparator ∉ n) →
      (∀ n ∈ names, ∀ k ∈ ks, omapFind st.original (fkStr n k) = none) →
      loadFilesGo
          (names.map fun n => (n, ks.flatMap (canonBlock hc hv cm vl ap n)))
          st g
        = (({ st with
              original := canonMap hc hv cm vl ap names ks st.original,
              updated := canonMap hc hv cm vl ap names ks st.updated },
            names.foldl
              (fun g _ => addNewAll g (ks.filter fun k => hc k || hv k)) g),
           none) := by
  intro names
  induction names with
  | nil => intro st g _ _ _; rfl
  | cons n names' ih =>
    intro st g hnd hsep hfresh
    rw [List.map_cons]
    show (match loadFile n (ks.flatMap (canonBlock hc hv cm vl ap n)) st g with
      | (r, some err) => (r, some err)
      | ((st1, g1), none) => loadFilesGo
          (names'.map fun n => (n, ks.flatMap (canonBlock hc hv cm vl ap n)))
          st1 g1) = _
    rw [canonFile_load hc hv cm vl ap n ks st g hknd hksep
      (fun k hk => hfresh n (List.mem_cons_self n names') k hk)]
    dsimp only
    rw [ih _ _ (List.nodup_cons.mp hnd).2
      (fun n' hn' => hsep n' (List.mem_cons_of_mem n hn'))
      (fun n' hn' k hk => by
        show omapFind (canonSetAll hc hv cm vl ap n ks st.original)
          (fkStr n' k) = none
        rw [canonSetAll_find_ne hc hv cm vl ap n ks _ _
          (fun k' _ => fkStr_ne_file n' n k k'
            (hsep n' (List.mem_cons_of_mem n hn'))
            (hsep n (List.mem_cons_self n names'))
            (fun hnn => (List.nodup_cons.mp hnd).1 (hnn ▸ hn')))]
        exact hfresh n' (List.mem_cons_of_mem n hn') k hk)]
    rfl

/-- `load()` on a canonical file set: both maps hold exactly the reconstructed
entries, the registry holds the accumulated content keys, the update log is
empty, no error, `loaded` set, files untouched. -/
theorem canonLoad_eq (names ks : List Str) (hc hv : Str → Bool)
    (cm vl : Str → Str → Str) (ap : Str → Str → Bool)
    (hnnd : names.Nodup) (hknd : ks.Nodup)
    (hnsep : ∀ n ∈ names, FullKeySeparator ∉ n)
    (hksep : ∀ k ∈ ks, KeyValueSeparator ∉ k) :
    runOp Op.load (mkEngine (canonFiles names ks hc hv cm vl ap))
      = ({ files := canonFiles names ks hc hv cm vl ap,
           state := { keys := canonKeys names ks hc hv,
                      updates := initUpdates,
                      original := canonMap hc hv cm vl ap names ks [],
                      updated := canonMap hc hv cm vl ap names ks [],
                      error := none, loaded := true } }, none) := by
  show runWrapped (str "load") loadOp _ = _
  unfold runWrapped
  rw [validateAction_load]
  show loadOp (mkEngine (canonFiles names ks hc hv cm vl ap)) = _
  unfold loadOp
  rw [show (mkEngine (canonFiles names ks hc hv cm vl ap)).files
      = names.map (fun n => (n, ks.flatMap (canonBlock hc hv cm vl ap n)))
    from rfl]
  rw [canonFiles_go hc hv cm vl ap ks hknd hksep names initState [] hnnd hnsep
    (fun n _ k _ => rfl)]
  rfl

theorem any_congr_mem (f g : Str → Bool) :
    ∀ (l : List Str), (∀ x ∈ l, f x = g x) → l.any f = l.any g := by
  intro l
  induction l with
  | nil => intro _; rfl
  | cons x l' ih =>
    intro h
    show (f x || l'.any f) = (g x || l'.any g)
    rw [h x (List.mem_cons_self x l'),
      ih (fun x' hx' => h x' (List.mem_cons_of_mem x hx'))]

theorem any_const_false :
    ∀ (l : List Str), (l.any fun _ => false) = false := by
  intro l
  induction l with
  | nil => rfl
  | cons x l' ih =>
    show (false || l'.any fun _ => false) = false
    rw [Bool.false_or, ih]

theorem flatMap_congr_mem (f g : Str → List Str) :
    ∀ (l : List Str), (∀ x ∈ l, f x = g x) → l.flatMap f = l.flatMap g := by
  intro l
  induction l with
  | nil => intro _; rfl
  | cons x l' ih =>
    intro h
    rw [List.flatMap_cons, List.flatMap_cons, h x (List.mem_cons_self x l'),
      ih (fun x' hx' => h x' (List.mem_cons_of_mem x hx'))]

theorem flatMap_filter_of_nil (p : Str → Bool) (f : Str → List Str) :
    ∀ (l : List Str), (∀ x ∈ l, p x = false → f x = []) →
      (l.filter p).flatMap f = l.flatMap f := by
  intro l
  induction l with
  | nil => intro _; rfl
  | cons x l' ih =>
    intro h
    rw [List.filter_cons, List.flatMap_cons]
    by_cases hp : p x = true
    · rw [if_pos hp, List.flatMap_cons,
        ih (fun x' hx' => h x' (List.mem_cons_of_mem x hx'))]
    · have hp0 : p x = false := Bool.eq_false_iff.mpr hp
      rw [if_neg (by rw [hp0]; exact Bool.false_ne_true),
        h x (List.mem_cons_self x l') hp0, List.nil_append,
        ih (fun x' hx' => h x' (List.mem_cons_of_mem x hx'))]

theorem canonBlock_nil (hc hv : Str → Bool) (cm vl : Str → Str → Str)
    (ap : Str → Str → Bool) (n k : Str) (hck : (hc k || hv k) = false) :
    canonBlock hc hv cm vl ap n k = [] := by
  have hhck : hc k = false := by
    cases hhc0 : hc k
    · rfl
    · rw [hhc0] at hck; simp at hck
  unfold canonBlock
  rw [hck, hhck]
  rfl

theorem foldl_addNewAll_const (ck : List Str) :
    ∀ (names : List Str) (g : List Str), (∀ k ∈ ck, k ∈ g) →
      names.foldl (fun g _ => addNewAll g ck) g = g := by
  intro names
  induction names with
  | nil => intro g _; rfl
  | cons n names' ih =>
    intro g h
    show names'.foldl (fun g _ => addNewAll g ck) (addNewAll g ck) = g
    rw [addNewAll_subset ck g h]
    exact ih g h

/-- With at least one locale file, the loaded registry is exactly the content
keys of the shared key sequence, in order. -/
theorem canonKeys_cons (n : Str) (names' ks : List Str) (hc hv : Str → Bool)
    (hknd : ks.Nodup) :
    canonKeys (n :: names') ks hc hv = ks.filter (fun k => hc k || hv k) := by
  show names'.foldl _ (addNewAll [] (ks.filter fun k => hc k || hv k)) = _
  rw [addNewAll_nil_left _ (List.Nodup.filter _ hknd)]
  exact foldl_addNewAll_const _ names' _ (fun k hk => hk)

theorem canonFiles_names (names ks : List Str) (hc hv : Str → Bool)
    (cm vl : Str → Str → Str) (ap : Str → Str → Bool) :
    (canonFiles names ks hc hv cm vl ap).map (·.1) = names := by
  unfold canonFiles
  rw [List.map_map]
  exact List.map_id'' (fun _ => rfl) names

theorem validateAction_save_ok (st : EngineState) (hl : st.loaded = true)
    (he : st.error = none) : validateAction (str "save") st = none := by
  unfold validateAction
  rw [if_neg (show ¬ (str "save" = str "load" ∨ str "save" = str "connect" ∨
    str "save" = str "export") from by decide)]
  rw [if_neg (not_not_intro hl), he]

/-- On the loaded canonical map, `save`'s has-comment scan recomputes exactly
the `hc` flag. -/
theorem canonSaveHasComment (names ks : List Str) (hc hv : Str → Bool)
    (cm vl : Str → Str → Str) (ap : Str → Str → Bool)
    (hnnd : names.Nodup) (hknd : ks.Nodup)
    (hnsep : ∀ n ∈ names, FullKeySeparator ∉ n)
    (k : Str) (hk : k ∈ ks) (hck : (hc k || hv k) = true)
    (hhck : hc k = names.any fun n => hasNonBlank (some (cm n k))) :
    saveHasComment (canonMap hc hv cm vl ap names ks []) names k = hc k := by
  unfold saveHasComment
  rw [any_congr_mem _
    (fun n => hasNonBlank (if hc k then some (cm n k) else none)) names
    (fun n hn => by
      rw [canonMap_find_mem hc hv cm vl ap n k names ks [] hnnd hnsep hknd
        hn hk hck]
      rfl)]
  by_cases hhc1 : hc k = true
  · rw [hhc1] at hhck ⊢
    exact hhck.symm
  · rw [Bool.eq_false_iff.mpr hhc1]
    exact any_const_false names

/-- On the loaded canonical map, `save`'s has-value scan recomputes exactly
the `hv` flag. -/
theorem canonSaveHasValue (names ks : List Str) (hc hv : Str → Bool)
    (cm vl : Str → Str → Str) (ap : Str → Str → Bool)
    (hnnd : names.Nodup) (hknd : ks.Nodup)
    (hnsep : ∀ n ∈ names, FullKeySeparator ∉ n)
    (k : Str) (hk : k ∈ ks) (hck : (hc k || hv k) = true)
    (hhvk : hv k = names.any fun n => hasNonBlank (some (vl n k))) :
    saveHasValue (canonMap hc hv cm vl ap names ks []) names k = hv k := by
  unfold saveHasValue
  rw [any_congr_mem _ (fun n => hasNonBlank (some (vl n k))) names
    (fun n hn => by
      rw [canonMap_find_mem hc hv cm vl ap n k names ks [] hnnd hnsep hknd
        hn hk hck]
      rfl)]
  exact hhvk.symm

/-- On the loaded canonical map, `save` emits for each content key in each
file exactly the canonical block it was loaded from. -/
theorem canonSaveKeyLines (names ks : List Str) (hc hv : Str → Bool)
    (cm vl : Str → Str → Str) (ap : Str → Str → Bool)
    (hnnd : names.Nodup) (hknd : ks.Nodup)
    (hnsep : ∀ n ∈ names, FullKeySeparator ∉ n)
    (n k : Str) (hn : n ∈ names) (hk : k ∈ ks) (hck : (hc k || hv k) = true)
    (hhck : hc k = names.any fun n => hasNonBlank (some (cm n k)))
    (hhvk : hv k = names.any fun n => hasNonBlank (some (vl n k))) :
    saveKeyLines (canonMap hc hv cm vl ap names ks []) names k n
      = canonBlock hc hv cm vl ap n k := by
  unfold saveKeyLines
  dsimp only
  rw [canonMap_find_mem hc hv cm vl ap n k names ks [] hnnd hnsep hknd
    hn hk hck]
  rw [canonSaveHasComment names ks hc hv cm vl ap hnnd hknd hnsep k hk hck
    hhck]
  rw [canonSaveHasValue names ks hc hv cm vl ap hnnd hknd hnsep k hk hck hhvk]
  simp only [entryFor, Option.getD_some]
  unfold canonBlock
  rw [hck]
  rw [marker_decide (ap n k)]
  by_cases hhc1 : hc k = true
  · rw [hhc1]
    rfl
  · rw [Bool.eq_false_iff.mpr hhc1]
    rfl

theorem map_congr_mem {β : Type} (f g : Str → β) :
    ∀ (l : List Str), (∀ x ∈ l, f x = g x) → l.map f = l.map g := by
  intro l
  induction l with
  | nil => intro _; rfl
  | cons x l' ih =>
    intro h
    rw [List.map_cons, List.map_cons, h x (List.mem_cons_self x l'),
      ih (fun x' hx' => h x' (List.mem_cons_of_mem x hx'))]

/-- `save` on the loaded canonical state reproduces each file's canonical
lines exactly. -/
theorem canonSaveFileLines (n0 : Str) (names' ks : List Str)
    (hc hv : Str → Bool) (cm vl : Str → Str → Str) (ap : Str → Str → Bool)
    (hnnd : (n0 :: names').Nodup) (hknd : ks.Nodup)
    (hnsep : ∀ n ∈ n0 :: names', FullKeySeparator ∉ n)
    (hhc : ∀ k ∈ ks,
      hc k = (n0 :: names').any fun n => hasNonBlank (some (cm n k)))
    (hhv : ∀ k ∈ ks,
      hv k = (n0 :: names').any fun n => hasNonBlank (some (vl n k)))
    (n : Str) (hn : n ∈ n0 :: names') :
    saveFileLines
        { keys := canonKeys (n0 :: names') ks hc hv,
          updates := initUpdates,
          original := canonMap hc hv cm vl ap (n0 :: names') ks [],
          updated := canonMap hc hv cm vl ap (n0 :: names') ks [],
          error := none, loaded := true } (n0 :: names') n
      = ks.flatMap (canonBlock hc hv cm vl ap n) := by
  unfold saveFileLines
  dsimp only
  rw [canonKeys_cons n0 names' ks hc hv hknd]
  rw [flatMap_congr_mem _ (canonBlock hc hv cm vl ap n) _ (fun k hk => by
    have hm := List.mem_filter.mp hk
    exact canonSaveKeyLines (n0 :: names') ks hc hv cm vl ap hnnd hknd hnsep
      n k hn hm.1 hm.2 (hhc k hm.1) (hhv k hm.1))]
  exact flatMap_filter_of_nil _ _ ks
    (fun k _ h0 => canonBlock_nil hc hv cm vl ap n k h0)

theorem runOp_save_ok (e : Engine) (hl : e.state.loaded = true)
    (he : e.state.error = none) : runOp Op.save e = (save e, none) := by
  show runWrapped (str "save") saveBody e = _
  unfold runWrapped
  rw [validateAction_save_ok e.state hl he]
  rfl

/-- C8 (amended): `load()` immediately followed by `save()` with zero pending
edits reproduces the locale files byte-for-byte on every file set already in
`save`'s canonical form: all files share one duplicate-free key sequence; a
key contributes to each file a comment line exactly when some file has a
non-blank comment for it, followed by a value line exactly when some file has
a non-blank comment or value for it; file names are free of the full-key
separator and keys free of the key/value separator.  The load throws nothing
and leaves zero pending edits, and the save rewrites every file to its
original bytes. -/
theorem loadSave_byteIdentical_canonical (names ks : List Str)
    (hc hv : Str → Bool) (cm vl : Str → Str → Str) (ap : Str → Str → Bool)
    (hnnd : names.Nodup) (hknd : ks.Nodup)
    (hnsep : ∀ n ∈ names, FullKeySeparator ∉ n)
    (hksep : ∀ k ∈ ks, KeyValueSeparator ∉ k)
    (hhc : ∀ k ∈ ks, hc k = names.any fun n => hasNonBlank (some (cm n k)))
    (hhv : ∀ k ∈ ks, hv k = names.any fun n => hasNonBlank (some (vl n k))) :
    (runOp Op.load (mkEngine (canonFiles names ks hc hv cm vl ap))).2
        = none ∧
    (runOp Op.load
        (mkEngine (canonFiles names ks hc hv cm vl ap))).1.state.updates.length
        = 0 ∧
    (runOp Op.save
        (runOp Op.load (mkEngine (canonFiles names ks hc hv cm vl ap))).1).2
        = none ∧
    (runOp Op.save
        (runOp Op.load (mkEngine (canonFiles names ks hc hv cm vl ap))).1).1.files
        = canonFiles names ks hc hv cm vl ap := by
  cases names with
  | nil => exact ⟨rfl, rfl, rfl, rfl⟩
  | cons n0 names' =>
    rw [canonLoad_eq (n0 :: names') ks hc hv cm vl ap hnnd hknd hnsep hksep]
    rw [runOp_save_ok _ rfl rfl]
    refine ⟨rfl, rfl, rfl, ?_⟩
    show (save
      { files := canonFiles (n0 :: names') ks hc hv cm vl ap,
        state := { keys := canonKeys (n0 :: names') ks hc hv,
                   updates := initUpdates,
                   original := canonMap hc hv cm vl ap (n0 :: names') ks [],
                   updated := canonMap hc hv cm vl ap (n0 :: names') ks [],
                   error := none, loaded := true } }).files = _
    unfold save
    dsimp only
    rw [canonFiles_names]
    rw [show canonFiles (n0 :: names') ks hc hv cm vl ap
      = (n0 :: names').map
          (fun n => (n, ks.flatMap (canonBlock hc hv cm vl ap n))) from rfl]
    rw [List.map_map]
    rw [map_congr_mem _
      (fun n => (n, ks.flatMap (canonBlock hc hv cm vl ap n))) _
      (fun n hn => by
        show (n, saveFileLines _ (n0 :: names') n)
          = (n, ks.flatMap (canonBlock hc hv cm vl ap n))
        rw [canonSaveFileLines n0 names' ks hc hv cm vl ap hnnd hknd hnsep
          hhc hhv n hn])]

/-- C8 witness: on the concrete canonical two-file set the loaded engine has
no pending edits and `save()` reproduces the files byte-for-byte. -/
theorem loadSave_byteIdentical_canonical_witness :
    w8N.Nodup ∧
      (runOp Op.save
          (runOp Op.load
            (mkEngine (canonFiles w8N w8K w8hc w8hv w8cm w8vl w8ap))).1).1.files
        = canonFiles w8N w8K w8hc w8hv w8cm w8vl w8ap :=
  ⟨by decide,
    (loadSave_byteIdentical_canonical w8N w8K w8hc w8hv w8cm w8vl w8ap
      (by decide) (by decide) (by decide) (by decide) (by decide)
      (by decide)).2.2.2⟩

/-- C6 witness: the concrete scenario with file `b.i18n` and key `x`. -/
theorem load_duplicateKey_captured_witness :
    c6Run.state.error = some (dupErrAt (str "b.i18n") (str "x")) ∧
      validateAction (str "updateValue") c6Run.state
        = some (notResolvedErr (dupErrAt (str "b.i18n") (str "x"))) :=
  ⟨((load_duplicateKey_captured (str "b.i18n") (str "x") (str "1") (str "2")
      (mkEngine [(str "b.i18n", [str "-x=1", str "-x=2"])])
      (by decide) (by decide)).2).1,
   ((load_duplicateKey_captured (str "b.i18n") (str "x") (str "1") (str "2")
      (mkEngine [(str "b.i18n", [str "-x=1", str "-x=2"])])
      (by decide) (by decide)).2).2.2.2.2.1 (str "updateValue") (by decide)⟩

end AI18n
